import Mathlib

/-!
Shallow embedding of the Codexa prototype ingest pipeline
(`streamlit_app.py`): content hashing and dedupe, per-extension text
extraction behind optional capabilities, the text cleaner, heuristic
metadata inference, the JSON index store, and the manifest builder.

Modelling conventions:
* Raw bytes are `List Nat` (each < 256); text is Lean `String`/`List Char`.
* Python regular expressions are embedded by a small backtracking engine
  (`RE`, `reM`) whose depth-first order matches Python `re`: leftmost
  match, greedy quantifiers, left-biased alternation.  Character classes
  model the ASCII fragment of Python's classes.
* Python `round` is round-half-to-even; on the rationals this code
  produces (`words/0.75`, `bytes/4`, `tokens*0.75`) the float
  computation is exact far beyond any realistic size, so it is embedded
  as exact rational rounding (`pyRoundDiv`).
* Calls into optional third-party parsers (pypdf, python-docx,
  BeautifulSoup, langdetect, csv) are oracle functions carried by a
  `Caps` record; a raised parser exception is `Except.error`.
* The content hash (`hashlib.sha256`) is an abstract function parameter:
  the dedupe logic uses it only as a deterministic key.
-/

namespace Codexa

/-- Python `\w` (ASCII fragment): letters, digits, underscore. -/
def isWordChar (c : Char) : Bool := c.isAlphanum || c = '_'

/-- Python `\s` (ASCII fragment): space, tab, LF, CR, VT, FF. -/
def isSpaceChar (c : Char) : Bool :=
  c = ' ' || c = '\t' || c = '\n' || c = '\r' || c = '\x0b' || c = '\x0c'

/-- Python `str.lower` on the ASCII fragment. -/
def pyLower (s : String) : String := String.mk (s.data.map Char.toLower)

/-- Python `str.strip` applied to a character list (ASCII whitespace). -/
def stripL (cs : List Char) : List Char :=
  ((cs.dropWhile isSpaceChar).reverse.dropWhile isSpaceChar).reverse

/-- Python `str.strip`. -/
def pyStrip (s : String) : String := String.mk (stripL s.data)

/-- `os.path.basename` with POSIX separator: everything after the last `/`. -/
def basename (cs : List Char) : List Char :=
  ((cs.reverse.takeWhile (fun c => ¬ c = '/'))).reverse

/-- CPython `os.path.splitext`: the extension starts at the last dot,
provided a non-dot character occurs before it in the basename
(so leading dots of a hidden file do not begin an extension). -/
def splitextCore (p : List Char) : List Char × List Char :=
  let base := basename p
  let stemRev := (base.reverse.dropWhile (fun c => ¬ c = '.'))
  match stemRev with
  | [] => (p, [])   -- no dot in the basename
  | _ :: stemRev' =>
    -- stemRev' is the reverse of the basename part before the last dot
    if (stemRev'.filter (fun c => ¬ c = '.')).length = 0 then (p, [])
    else
      let extLen := base.length - stemRev'.length
      (p.take (p.length - extLen), p.drop (p.length - extLen))

/-- Extension part of `os.path.splitext` (includes the dot). -/
def splitextExt (p : List Char) : List Char := (splitextCore p).2

/-- Stem part of `os.path.splitext` (the input with the extension cut off). -/
def splitextStem (p : List Char) : List Char := (splitextCore p).1

/-! ## A backtracking regular-expression engine

Python `re` semantics: at a given start position the engine explores
alternatives depth first (left alternative first, greedy repetition
takes more first) and commits to the first overall success; `search`
tries start positions left to right.  `wb` is the `\b` word-boundary
assertion, which needs the character preceding the current position. -/

inductive RE where
  | eps
  | cls (p : Char → Bool)
  | seq (a b : RE)
  | alt (a b : RE)
  | star (a : RE)
  | wb
deriving Inhabited

/-- `\b` holds when exactly one side of the position is a word char. -/
def boundaryAt (prev : Option Char) (s : List Char) : Bool :=
  (match prev with | some c => isWordChar c | none => false)
    != (match s with | c :: _ => isWordChar c | [] => false)

/-- CPS backtracking matcher.  `prev` is the original character before
the current position (for `\b`).  The continuation receives the new
`prev` and the remaining input; the first success in DFS order wins.
`fuel` (structurally decreasing, so the kernel can evaluate) bounds the
depth of the recursion: one unit per regex node entered plus one per
greedy-star unfolding, and sequencing takes the maximum of its parts,
so `input length + the pattern size` is always enough. -/
def reM : Nat → RE → Option Char → List Char →
    (Option Char → List Char → Option (List Char)) → Option (List Char)
  | 0, _, _, _, _ => none
  | f + 1, r, prev, s, k =>
    match r with
    | .eps => k prev s
    | .cls p =>
      match s with
      | [] => none
      | c :: rest => if p c then k (some c) rest else none
    | .seq a b => reM f a prev s (fun p2 s2 => reM f b p2 s2 k)
    | .alt a b =>
      match reM f a prev s k with
      | some res => some res
      | none => reM f b prev s k
    | .star a =>
      match reM f a prev s (fun p2 s2 =>
          if s2.length < s.length then reM f (.star a) p2 s2 k else none) with
      | some res => some res
      | none => k prev s
    | .wb => if boundaryAt prev s then k prev s else none

/-- Greedy `a+`. -/
def RE.plus (a : RE) : RE := .seq a (.star a)

/-- Greedy `a?`. -/
def RE.opt (a : RE) : RE := .alt a .eps

/-- `a{n}`. -/
def RE.repN : Nat → RE → RE
  | 0, _ => .eps
  | n + 1, a => .seq a (RE.repN n a)

/-- A literal character. -/
def RE.one (c : Char) : RE := .cls (fun d => d = c)

/-- A literal string. -/
def RE.lit : List Char → RE
  | [] => .eps
  | c :: cs => .seq (RE.one c) (RE.lit cs)

/-- Match `r` at the current position; returns the remaining input after
the match (Python's match extent: first success in DFS order). -/
def reTry (fuel : Nat) (r : RE) (prev : Option Char) (s : List Char) :
    Option (List Char) :=
  reM fuel r prev s (fun _ rest => some rest)

/-- `re.sub(r, repl, ...)` scanning from the current position: replace
each non-overlapping leftmost match, scanning the original string left
to right.  On an empty match the replacement is inserted and one
character is copied (CPython ≥ 3.7); the patterns used here never match
empty.  The first fuel (structural, so the kernel can evaluate) bounds
the scan steps, each consuming at least one character, so
`input length + 1` is enough; `mf` is the matcher fuel. -/
def reSubGo : Nat → Nat → RE → List Char → Option Char → List Char → List Char
  | 0, _, _, _, _, s => s
  | f + 1, mf, r, repl, prev, s =>
    match reTry mf r prev s with
    | some rest =>
      if rest.length < s.length then
        repl ++ reSubGo f mf r repl ((s.take (s.length - rest.length)).getLast?) rest
      else
        match s with
        | [] => repl
        | c :: s' => repl ++ c :: reSubGo f mf r repl (some c) s'
    | none =>
      match s with
      | [] => []
      | c :: s' => c :: reSubGo f mf r repl (some c) s'

/-- Number of matches of `re.findall` (non-overlapping, leftmost). -/
def reCountGo : Nat → Nat → RE → Option Char → List Char → Nat
  | 0, _, _, _, _ => 0
  | f + 1, mf, r, prev, s =>
    match reTry mf r prev s with
    | some rest =>
      if rest.length < s.length then
        1 + reCountGo f mf r ((s.take (s.length - rest.length)).getLast?) rest
      else
        match s with
        | [] => 1
        | c :: s' => 1 + reCountGo f mf r (some c) s'
    | none =>
      match s with
      | [] => 0
      | c :: s' => reCountGo f mf r (some c) s'

/-- `re.sub` over a whole string. -/
def reSub (r : RE) (repl : String) (s : String) : String :=
  String.mk (reSubGo (s.data.length + 1) (s.data.length + 64) r repl.data none s.data)

/-! ## The module-level patterns of `streamlit_app.py` -/

/-- `[\w'-]`, the class of `WORD_RE`. -/
def wordTokChar (c : Char) : Bool := isWordChar c || c = '\'' || c = '-'

/-- `WORD_RE = \b[\w'-]+\b`. -/
def WORD_RE : RE := .seq .wb (.seq (RE.plus (.cls wordTokChar)) .wb)

/-- `[A-Za-z0-9._%+-]`, the local part class of `EMAIL_RE`. -/
def emailLocalChar (c : Char) : Bool :=
  c.isAlphanum || c = '.' || c = '_' || c = '%' || c = '+' || c = '-'

/-- `[A-Za-z0-9.-]`, the domain class of `EMAIL_RE`. -/
def emailDomChar (c : Char) : Bool := c.isAlphanum || c = '.' || c = '-'

/-- `EMAIL_RE = [A-Za-z0-9._%+-]+@[A-Za-z0-9.-]+\.[A-Za-z]{2,}`. -/
def EMAIL_RE : RE :=
  .seq (RE.plus (.cls emailLocalChar))
    (.seq (RE.one '@')
      (.seq (RE.plus (.cls emailDomChar))
        (.seq (RE.one '.')
          (.seq (.cls Char.isAlpha) (RE.plus (.cls Char.isAlpha))))))

/-- `[-.\s]`, the separator class of `PHONE_RE`. -/
def phoneSepChar (c : Char) : Bool := c = '-' || c = '.' || isSpaceChar c

/-- `\d{1,3}` (greedy: 3, then 2, then 1). -/
def phoneD13 : RE :=
  .seq (.cls Char.isDigit) (.seq (RE.opt (.cls Char.isDigit)) (RE.opt (.cls Char.isDigit)))

/-- `\+?\d{1,3}[-.\s]?`, the optional country-code group of `PHONE_RE`. -/
def phoneG1 : RE :=
  .seq (RE.opt (RE.one '+')) (.seq phoneD13 (RE.opt (.cls phoneSepChar)))

/-- `\(?\d{3}\)?[-.\s]?`, the repeated group of `PHONE_RE`. -/
def phoneG2 : RE :=
  .seq (RE.opt (RE.one '('))
    (.seq (RE.repN 3 (.cls Char.isDigit))
      (.seq (RE.opt (RE.one ')')) (RE.opt (.cls phoneSepChar))))

/-- `PHONE_RE = \b(?:\+?\d{1,3}[-.\s]?)?(?:\(?\d{3}\)?[-.\s]?){2}\d{4}\b`. -/
def PHONE_RE : RE :=
  .seq .wb
    (.seq (RE.opt phoneG1)
      (.seq (RE.repN 2 phoneG2)
        (.seq (RE.repN 4 (.cls Char.isDigit)) .wb)))

/-- `URL_RE = https?://\S+`. -/
def URL_RE : RE :=
  .seq (RE.lit "http".data)
    (.seq (RE.opt (RE.one 's'))
      (.seq (RE.lit "://".data)
        (RE.plus (.cls (fun c => !isSpaceChar c)))))

/-- `len(WORD_RE.findall(text))`. -/
def wordCount (s : String) : Nat :=
  reCountGo (s.data.length + 1) (s.data.length + 64) WORD_RE none s.data

/-! ## Token estimation

Python `round` rounds half to even.  `words / 0.75`, `n_bytes / 4` and
`tokens * 0.75` are the exact rationals `4w/3`, `n/4`, `3t/4` (0.75 and
division by 4 are exact in binary floating point, and the float error on
`4w/3` is far below the distance of its fractional part from 1/2), so
`round` is embedded as exact round-half-to-even of a fraction. -/

/-- `int(round(a / b))` for naturals, Python semantics (half to even). -/
def pyRoundDiv (a b : Nat) : Nat :=
  let q := a / b
  let r := a % b
  if 2 * r < b then q
  else if b < 2 * r then q + 1
  else if q % 2 = 0 then q else q + 1

structure Counts where
  words : Nat
  tokens : Nat
deriving Repr, DecidableEq

/-- `estimate_tokens_from_text`: `words = len(WORD_RE.findall(text))`,
`tokens = int(round(words / 0.75))` (= round-half-even of `4·words/3`). -/
def estimate_tokens_from_text (text : String) : Counts :=
  let words := wordCount text
  { words := words, tokens := pyRoundDiv (4 * words) 3 }

/-- `estimate_tokens_from_bytes`: `tokens = int(round(n_bytes / 4))`,
`words = int(round(tokens * 0.75))` (= round-half-even of `3·tokens/4`). -/
def estimate_tokens_from_bytes (n_bytes : Nat) : Counts :=
  let tokens := pyRoundDiv n_bytes 4
  { words := pyRoundDiv (3 * tokens) 4, tokens := tokens }

/-! ## The cleaner (`clean_text`)

Each regex substitution of the Python source is embedded as a direct
scan with the same semantics (leftmost match over the original string,
scan continuing after each match). -/

/-- `s.replace("\r\n", "\n").replace("\r", "\n")`. -/
def normNewlines : List Char → List Char
  | [] => []
  | '\r' :: '\n' :: rest => '\n' :: normNewlines rest
  | '\r' :: rest => '\n' :: normNewlines rest
  | c :: rest => c :: normNewlines rest

/-- The class `[ \t]`. -/
def isBlankChar (c : Char) : Bool := c = ' ' || c = '\t'

theorem dropWhile_length_le (p : Char → Bool) :
    ∀ l : List Char, (l.dropWhile p).length ≤ l.length
  | [] => le_refl _
  | a :: l => by
    rw [List.dropWhile_cons]
    split
    · exact le_trans (dropWhile_length_le p l) (Nat.le_succ _)
    · exact le_refl _

/-- `re.sub(r"[ \t]+", " ", s)`: each maximal run of spaces/tabs becomes
one space (a blank whose successor is also blank is dropped; the last
blank of a run becomes the space). -/
def collapseBlankRuns : List Char → List Char
  | [] => []
  | [c] => if isBlankChar c then [' '] else [c]
  | c :: d :: rest =>
    if isBlankChar c then
      if isBlankChar d then collapseBlankRuns (d :: rest)
      else ' ' :: d :: collapseBlankRuns rest
    else c :: collapseBlankRuns (d :: rest)

/-- `re.sub(r"(?<!\n)\n(?!\n)", " ", s)`: a newline whose original
neighbours are not newlines becomes a space.  `prev` is the original
preceding character. -/
def unwrapSingles (prev : Option Char) : List Char → List Char
  | [] => []
  | c :: rest =>
    if c = '\n' then
      (if ¬ prev = some '\n' ∧ ¬ rest.head? = some '\n' then ' ' else '\n')
        :: unwrapSingles (some '\n') rest
    else c :: unwrapSingles (some c) rest

mutual
/-- `re.sub(r"(\w)-\s+(\w)", r"\1\2", s)`: scan left to right; a word
char, a hyphen, one or more whitespace chars and a word char collapse to
the two word chars; the scan continues after the match.  No match can
start at a hyphen or inside whitespace (the pattern opens with `\w`),
so on failure the scan resumes after the hyphen / failing character.
The structural fuel makes every step consume at least one character, so
`input length + 1` is always enough. -/
def fixHyphGo : Nat → List Char → List Char
  | 0, s => s
  | f + 1, s =>
    match s with
    | [] => []
    | [c] => [c]
    | c :: '-' :: rest =>
      if isWordChar c then
        match rest with
        | d :: rest2 =>
          if isSpaceChar d then fixHyphWsGo f c [d] rest2
          else c :: '-' :: fixHyphGo f rest
        | [] => [c, '-']
      else c :: '-' :: fixHyphGo f rest
    | c :: rest => c :: fixHyphGo f rest

/-- Inside the `\s+` run after `c-`; `ws` holds the consumed whitespace
in reverse for re-emission when the match fails. -/
def fixHyphWsGo : Nat → Char → List Char → List Char → List Char
  | 0, c, ws, s => c :: '-' :: (ws.reverse ++ s)
  | f + 1, c, ws, s =>
    match s with
    | [] => c :: '-' :: ws.reverse
    | e :: rest =>
      if isSpaceChar e then fixHyphWsGo f c (e :: ws) rest
      else if isWordChar e then c :: e :: fixHyphGo f rest
      else c :: '-' :: (ws.reverse ++ e :: fixHyphGo f rest)
end

def fixHyphens (s : List Char) : List Char := fixHyphGo (s.length + 1) s

mutual
/-- `re.sub(r"\n{3,}", "\n\n", s)`: runs of three or more newlines
become exactly two. -/
def collapseNewlineRuns : List Char → List Char
  | [] => []
  | c :: rest =>
    if c = '\n' then nlRun 1 rest
    else c :: collapseNewlineRuns rest

/-- Inside a newline run of current length `n ≥ 1`. -/
def nlRun (n : Nat) : List Char → List Char
  | [] => if 3 ≤ n then ['\n', '\n'] else List.replicate n '\n'
  | c :: rest =>
    if c = '\n' then nlRun (n + 1) rest
    else (if 3 ≤ n then ['\n', '\n'] else List.replicate n '\n')
      ++ c :: collapseNewlineRuns rest
end

/-- `EMAIL_RE.sub("[EMAIL]", s)`. -/
def subEmail (s : String) : String := reSub EMAIL_RE "[EMAIL]" s

/-- `PHONE_RE.sub("[PHONE]", s)`. -/
def subPhone (s : String) : String := reSub PHONE_RE "[PHONE]" s

/-- `URL_RE.sub("[URL]", s)`. -/
def subUrl (s : String) : String := reSub URL_RE "[URL]" s

/-- The PII block of `clean_text` in its implemented order:
email, then phone, then URL. -/
def piiScrubImpl (s : String) : String := subUrl (subPhone (subEmail s))

/-- `clean_text(text, pii)`. -/
def clean_text (text : String) (pii : Bool) : String :=
  if text = "" then ""
  else
    let s := normNewlines text.data
    let s := collapseBlankRuns s
    let s := unwrapSingles none s
    let s := fixHyphens s
    let s := collapseNewlineRuns s
    let s := if pii then (piiScrubImpl (String.mk s)).data else s
    String.mk (stripL s)

/-! ## Metadata inference (`auto_metadata`) -/

/-- `YEAR_RE.search = (19|20)\d{2}`, hand-rolled (leftmost match; at a
given position the two alternatives start with distinct characters, so
no backtracking is observable).  Returns the four matched characters. -/
def searchYear : List Char → Option (List Char)
  | [] => none
  | c1 :: rest =>
    match rest with
    | c2 :: c3 :: c4 :: _ =>
      if ((c1 = '1' ∧ c2 = '9') ∨ (c1 = '2' ∧ c2 = '0')) ∧ c3.isDigit ∧ c4.isDigit then
        some [c1, c2, c3, c4]
      else searchYear rest
    | _ => none

/-- `int` of a run of decimal digit characters. -/
def digitsVal (cs : List Char) : Nat :=
  cs.foldl (fun a c => 10 * a + (c.toNat - 48)) 0

/-- The first non-empty stripped line:
`next((ln.strip() for ln in text.split("\n") if ln.strip()), "")`. -/
def firstNonemptyLine : List (List Char) → List Char
  | [] => []
  | l :: ls => if stripL l = [] then firstNonemptyLine ls else stripL l

/-! ## JSON documents

The index store persists one JSON document via `json.dump(ix,
ensure_ascii=False, indent=2)` and reads it back with `json.load`.
JSON values are embedded with integer numbers: the program writes only
integers, strings, booleans, `null`, arrays and objects into the index;
the parser flags a fractional/exponent number as an error instead of
modelling binary floating point. -/

inductive Json where
  | null
  | bool (b : Bool)
  | num (n : Int)
  | str (s : String)
  | arr (elems : List Json)
  | obj (members : List (String × Json))
deriving Inhabited

/-- Decimal digits of a natural number. -/
def natDigits (n : Nat) : List Char :=
  if h : n < 10 then [Char.ofNat (48 + n)]
  else natDigits (n / 10) ++ [Char.ofNat (48 + n % 10)]
termination_by n
decreasing_by simp_wf; omega

/-- `repr` of a Python int. -/
def intRepr (n : Int) : List Char :=
  if n < 0 then '-' :: natDigits n.natAbs else natDigits n.natAbs

/-- Lowercase hex digit, as in CPython's `\u%04x` escapes. -/
def hexDigitChar (n : Nat) : Char :=
  if n < 10 then Char.ofNat (48 + n) else Char.ofNat (87 + n)

/-- CPython `json` string escaping with `ensure_ascii=False`: quote,
backslash and the C0 control characters are escaped (shortcuts for the
usual five), everything else is emitted raw. -/
def jsonEscapeChar (c : Char) : List Char :=
  if c = '"' then ['\\', '"']
  else if c = '\\' then ['\\', '\\']
  else if c = '\n' then ['\\', 'n']
  else if c = '\t' then ['\\', 't']
  else if c = '\r' then ['\\', 'r']
  else if c = '\x08' then ['\\', 'b']
  else if c = '\x0c' then ['\\', 'f']
  else if c.toNat < 0x20 then
    ['\\', 'u', '0', '0', hexDigitChar (c.toNat / 16), hexDigitChar (c.toNat % 16)]
  else [c]

/-- A JSON string literal. -/
def jsonQuote (s : String) : List Char :=
  '"' :: (s.data.flatMap jsonEscapeChar ++ ['"'])

/-- The indentation prefix at depth `d` for `indent=2`. -/
def indentChars (d : Nat) : List Char := List.replicate (2 * d) ' '

mutual
/-- `json.dump(v, ensure_ascii=False, indent=2)` at nesting depth `d`:
with an indent, items are separated by `",\n"`, keys by `": "`, and
containers open/close on their own lines. -/
def jsonDump (d : Nat) : Json → List Char
  | .null => 'n' :: ['u', 'l', 'l']
  | .bool true => 't' :: ['r', 'u', 'e']
  | .bool false => 'f' :: ['a', 'l', 's', 'e']
  | .num n => intRepr n
  | .str s => jsonQuote s
  | .arr [] => ['[', ']']
  | .arr (x :: xs) =>
    '[' :: '\n' :: (jsonDumpItems (d + 1) x xs ++ '\n' :: (indentChars d ++ [']']))
  | .obj [] => ['\x7b', '\x7d']
  | .obj ((k, v) :: kvs) =>
    '\x7b' :: '\n' :: (jsonDumpMembers (d + 1) k v kvs ++ '\n' :: (indentChars d ++ ['\x7d']))

termination_by v => sizeOf v
decreasing_by all_goals (simp_wf <;> omega)

/-- The array items, each on its own indented line. -/
def jsonDumpItems (d : Nat) (x : Json) : List Json → List Char
  | [] => indentChars d ++ jsonDump d x
  | y :: ys => indentChars d ++ (jsonDump d x ++ ',' :: '\n' :: jsonDumpItems d y ys)
termination_by xs => 1 + sizeOf x + sizeOf xs
decreasing_by all_goals (simp_wf <;> omega)

/-- The object members, each on its own indented line. -/
def jsonDumpMembers (d : Nat) (k : String) (v : Json) : List (String × Json) → List Char
  | [] => indentChars d ++ (jsonQuote k ++ ':' :: ' ' :: jsonDump d v)
  | (k2, v2) :: kvs =>
    indentChars d ++ (jsonQuote k ++ ':' :: ' ' :: (jsonDump d v
      ++ ',' :: '\n' :: jsonDumpMembers d k2 v2 kvs))
termination_by kvs => 1 + sizeOf v + sizeOf kvs
decreasing_by all_goals (simp_wf <;> omega)
end

/-- JSON whitespace. -/
def jsonWs (c : Char) : Bool := c = ' ' || c = '\t' || c = '\n' || c = '\r'

/-- Skip JSON whitespace. -/
def skipWs (s : List Char) : List Char := s.dropWhile jsonWs

/-- Value of a hex digit. -/
def hexVal (c : Char) : Option Nat :=
  if '0' ≤ c ∧ c ≤ '9' then some (c.toNat - 48)
  else if 'a' ≤ c ∧ c ≤ 'f' then some (c.toNat - 87)
  else if 'A' ≤ c ∧ c ≤ 'F' then some (c.toNat - 55)
  else none

/-- The body of a JSON string literal after the opening quote (CPython
`json` strict mode: raw control characters are rejected; escapes are
`\" \\ \/ \b \f \n \r \t \uXXXX`).  A lone surrogate — which CPython
would decode to an unpaired surrogate code unit — is not representable
as a Lean `Char` and is flagged as an error. -/
def jsonParseStrGo : Nat → List Char → List Char → Except String (String × List Char)
  | 0, _, _ => .error "out of fuel"
  | _ + 1, _, [] => .error "Unterminated string"
  | f + 1, acc, c :: rest =>
    if c = '"' then .ok (String.mk acc.reverse, rest)
    else if c = '\\' then
      match rest with
      | [] => .error "Unterminated string"
      | e :: rest2 =>
        if e = '"' then jsonParseStrGo f ('"' :: acc) rest2
        else if e = '\\' then jsonParseStrGo f ('\\' :: acc) rest2
        else if e = '/' then jsonParseStrGo f ('/' :: acc) rest2
        else if e = 'b' then jsonParseStrGo f ('\x08' :: acc) rest2
        else if e = 'f' then jsonParseStrGo f ('\x0c' :: acc) rest2
        else if e = 'n' then jsonParseStrGo f ('\n' :: acc) rest2
        else if e = 'r' then jsonParseStrGo f ('\r' :: acc) rest2
        else if e = 't' then jsonParseStrGo f ('\t' :: acc) rest2
        else if e = 'u' then
          match rest2 with
          | h1 :: h2 :: h3 :: h4 :: rest3 =>
            (match hexVal h1, hexVal h2, hexVal h3, hexVal h4 with
             | some x1, some x2, some x3, some x4 =>
               let v := 4096 * x1 + 256 * x2 + 16 * x3 + x4
               if v < 0xD800 ∨ 0xDFFF < v then
                 jsonParseStrGo f (Char.ofNat v :: acc) rest3
               else if v ≤ 0xDBFF then
                 match rest3 with
                 | '\\' :: 'u' :: g1 :: g2 :: g3 :: g4 :: rest4 =>
                   (match hexVal g1, hexVal g2, hexVal g3, hexVal g4 with
                    | some y1, some y2, some y3, some y4 =>
                      let w := 4096 * y1 + 256 * y2 + 16 * y3 + y4
                      if 0xDC00 ≤ w ∧ w ≤ 0xDFFF then
                        jsonParseStrGo f
                          (Char.ofNat (0x10000 + (v - 0xD800) * 0x400 + (w - 0xDC00)) :: acc)
                          rest4
                      else .error "lone surrogate not representable in this model"
                    | _, _, _, _ => .error "Invalid uXXXX escape")
                 | _ => .error "lone surrogate not representable in this model"
               else .error "lone surrogate not representable in this model"
             | _, _, _, _ => .error "Invalid uXXXX escape")
          | _ => .error "Invalid uXXXX escape"
        else .error "Invalid escape"
    else if c.toNat < 0x20 then .error "Invalid control character"
    else jsonParseStrGo f (c :: acc) rest

/-- Finish a number: CPython's number regex would continue into a
fraction or exponent; this model covers only integral numbers (the only
numbers the program writes), so those are flagged. -/
def jsonFinishNum (neg : Bool) (v : Nat) (rest : List Char) :
    Except String (Json × List Char) :=
  match rest with
  | c :: _ =>
    if c = '.' ∨ c = 'e' ∨ c = 'E' then
      .error "non-integral number (outside this model)"
    else .ok (.num (if neg then -(v : Int) else (v : Int)), rest)
  | [] => .ok (.num (if neg then -(v : Int) else (v : Int)), rest)

/-- The digits of a JSON number after the optional sign:
`0|[1-9][0-9]*`, greedy. -/
def jsonParseNumBody (neg : Bool) : List Char → Except String (Json × List Char)
  | [] => .error "Expecting value"
  | c :: r =>
    if c = '0' then jsonFinishNum neg 0 r
    else if c.isDigit then
      jsonFinishNum neg (digitsVal ((c :: r).takeWhile Char.isDigit))
        ((c :: r).dropWhile Char.isDigit)
    else .error "Expecting value"

/-- A JSON number: `-?(0|[1-9][0-9]*)` with the integral-only restriction. -/
def jsonParseNum : List Char → Except String (Json × List Char)
  | [] => .error "Expecting value"
  | c :: r =>
    if c = '-' then jsonParseNumBody true r
    else jsonParseNumBody false (c :: r)

mutual
/-- `json` value parser (recursive descent as in CPython's pure-Python
scanner; leading whitespace is skipped here).  `fuel` decreases on every
recursive call; any fuel at least `jsonNeed` of the value suffices. -/
def jsonParseVal (fuel : Nat) (s : List Char) : Except String (Json × List Char) :=
  match fuel with
  | 0 => .error "out of fuel"
  | f + 1 =>
    match skipWs s with
    | [] => .error "Expecting value"
    | c :: r =>
      if c = 'n' then
        match r with
        | 'u' :: 'l' :: 'l' :: rest => .ok (.null, rest)
        | _ => .error "Expecting value"
      else if c = 't' then
        match r with
        | 'r' :: 'u' :: 'e' :: rest => .ok (.bool true, rest)
        | _ => .error "Expecting value"
      else if c = 'f' then
        match r with
        | 'a' :: 'l' :: 's' :: 'e' :: rest => .ok (.bool false, rest)
        | _ => .error "Expecting value"
      else if c = '"' then
        match jsonParseStrGo (r.length + 1) [] r with
        | .error e => .error e
        | .ok (str, rest2) => .ok (.str str, rest2)
      else if c = '[' then
        (if (skipWs r).head? = some ']' then .ok (.arr [], (skipWs r).tail)
         else jsonParseElems f (skipWs r) [])
      else if c = '\x7b' then
        (if (skipWs r).head? = some '\x7d' then .ok (.obj [], (skipWs r).tail)
         else jsonParseMembers f (skipWs r) [])
      else if c = '-' ∨ c.isDigit = true then jsonParseNum (c :: r)
      else .error "Expecting value"

/-- The elements of a non-empty array, accumulated in reverse. -/
def jsonParseElems (fuel : Nat) (s : List Char) (acc : List Json) :
    Except String (Json × List Char) :=
  match fuel with
  | 0 => .error "out of fuel"
  | f + 1 =>
    match jsonParseVal f s with
    | .error e => .error e
    | .ok (v, rest) =>
      match skipWs rest with
      | c :: rest2 =>
        if c = ',' then jsonParseElems f rest2 (v :: acc)
        else if c = ']' then .ok (.arr (v :: acc).reverse, rest2)
        else .error "Expecting comma delimiter"
      | [] => .error "Expecting comma delimiter"

/-- The members of a non-empty object, accumulated in reverse. -/
def jsonParseMembers (fuel : Nat) (s : List Char) (acc : List (String × Json)) :
    Except String (Json × List Char) :=
  match fuel with
  | 0 => .error "out of fuel"
  | f + 1 =>
    match s with
    | c0 :: rest =>
      if c0 = '"' then
        (match jsonParseStrGo (rest.length + 1) [] rest with
         | .error e => .error e
         | .ok (key, r1) =>
           match skipWs r1 with
           | c1 :: r2 =>
             if c1 = ':' then
               (match jsonParseVal f r2 with
                | .error e => .error e
                | .ok (v, r3) =>
                  match skipWs r3 with
                  | c2 :: r4 =>
                    if c2 = ',' then jsonParseMembers f (skipWs r4) ((key, v) :: acc)
                    else if c2 = '\x7d' then .ok (.obj ((key, v) :: acc).reverse, r4)
                    else .error "Expecting comma delimiter"
                  | [] => .error "Expecting comma delimiter")
             else .error "Expecting colon delimiter"
           | [] => .error "Expecting colon delimiter")
      else .error "Expecting property name"
    | [] => .error "Expecting property name"
end

/-- `json.loads`: parse one document, allow trailing whitespace only. -/
def jsonLoads (s : String) : Except String Json :=
  match jsonParseVal (s.data.length + 1) s.data with
  | .error e => .error e
  | .ok (v, rest) =>
    match skipWs rest with
    | [] => .ok v
    | _ => .error "Extra data"

/-- `str` of a scalar parsed by `json.loads`, as used by the JSON
flattener (`walk`) in `extract_text_from_bytes`. -/
def pyStrScalar : Json → String
  | .null => "None"
  | .bool true => "True"
  | .bool false => "False"
  | .num n => String.mk (intRepr n)
  | .str s => s
  | .arr _ => ""   -- never reached: containers are descended into
  | .obj _ => ""

mutual
/-- The `walk` flattener of the `.json` extractor: leaf scalars in
depth-first key/array order, one `str(x)` per leaf. -/
def jsonFlatten : Json → List String
  | .arr xs => jsonFlattenList xs
  | .obj kvs => jsonFlattenMembers kvs
  | v => [pyStrScalar v]

def jsonFlattenList : List Json → List String
  | [] => []
  | x :: xs => jsonFlatten x ++ jsonFlattenList xs

def jsonFlattenMembers : List (String × Json) → List String
  | [] => []
  | kv :: kvs => jsonFlatten kv.2 ++ jsonFlattenMembers kvs
end

/-! ## The index store (`load_index` / `save_index`)

The filesystem is a path → contents association (later writes shadow
earlier ones).  `save_index` serialises the whole mapping; `load_index`
returns the empty mapping when the file does not exist, and otherwise
whatever `json.load` does (including propagating its parse error). -/

def INDEX_PATH : String := "storage/dedupe_index.json"

/-- A tiny filesystem model: later writes shadow earlier ones. -/
def FS := List (String × String)

/-- Write a file. -/
def fsWrite (fs : FS) (p : String) (content : String) : FS := (p, content) :: fs

/-- Read a file if it exists. -/
def fsRead (fs : FS) (p : String) : Option String :=
  match fs with
  | [] => none
  | kv :: rest => if kv.1 = p then some kv.2 else fsRead rest p

/-- `save_index`: `json.dump(ix, f, ensure_ascii=False, indent=2)`. -/
def save_index (fs : FS) (ix : List (String × Json)) : FS :=
  fsWrite fs INDEX_PATH (String.mk (jsonDump 0 (.obj ix)))

/-- `load_index`: `json.load` when the file exists, else `{}`. -/
def load_index (fs : FS) : Except String Json :=
  match fsRead fs INDEX_PATH with
  | none => .ok (.obj [])
  | some content => jsonLoads content

/-! ## Decoding (`safe_decode`) -/

/-- Strict UTF-8 decoding as in CPython (`raw.decode("utf-8")`):
rejects continuation errors, overlong forms, surrogates and values
above U+10FFFF. -/
def utf8DecodeL : List Nat → Option (List Char)
  | [] => some []
  | b :: rest =>
    if b ≤ 0x7F then (utf8DecodeL rest).map (fun cs => Char.ofNat b :: cs)
    else if 0xC2 ≤ b ∧ b ≤ 0xDF then
      match rest with
      | b2 :: rest2 =>
        if 0x80 ≤ b2 ∧ b2 ≤ 0xBF then
          (utf8DecodeL rest2).map (fun cs =>
            Char.ofNat ((b - 0xC0) * 64 + (b2 - 0x80)) :: cs)
        else none
      | [] => none
    else if 0xE0 ≤ b ∧ b ≤ 0xEF then
      match rest with
      | b2 :: b3 :: rest3 =>
        if (if b = 0xE0 then 0xA0 else 0x80) ≤ b2 ∧
            b2 ≤ (if b = 0xED then 0x9F else 0xBF) ∧ 0x80 ≤ b3 ∧ b3 ≤ 0xBF then
          (utf8DecodeL rest3).map (fun cs =>
            Char.ofNat ((b - 0xE0) * 4096 + (b2 - 0x80) * 64 + (b3 - 0x80)) :: cs)
        else none
      | _ => none
    else if 0xF0 ≤ b ∧ b ≤ 0xF4 then
      match rest with
      | b2 :: b3 :: b4 :: rest4 =>
        if (if b = 0xF0 then 0x90 else 0x80) ≤ b2 ∧
            b2 ≤ (if b = 0xF4 then 0x8F else 0xBF) ∧
            0x80 ≤ b3 ∧ b3 ≤ 0xBF ∧ 0x80 ≤ b4 ∧ b4 ≤ 0xBF then
          (utf8DecodeL rest4).map (fun cs =>
            Char.ofNat ((b - 0xF0) * 262144 + (b2 - 0x80) * 4096
              + (b3 - 0x80) * 64 + (b4 - 0x80)) :: cs)
        else none
      | _ => none
    else none
termination_by l => l.length
decreasing_by all_goals simp_wf <;> omega

/-- Latin-1 decoding never fails (bytes are < 256; the `% 256` keeps the
model total on all of `Nat`). -/
def latin1Decode (raw : List Nat) : List Char :=
  raw.map (fun b => Char.ofNat (b % 256))

/-- `safe_decode`: UTF-8, falling back to Latin-1.  Latin-1 decoding is
total, so the source's final `errors="ignore"` branch is unreachable. -/
def safe_decode (raw : List Nat) : String :=
  match utf8DecodeL raw with
  | some cs => String.mk cs
  | none => String.mk (latin1Decode raw)

/-! ## Optional capabilities and extraction (`extract_text_from_bytes`) -/

/-- The optional-dependency flags (`HAVE_PDF`, …) together with oracle
functions for the third-party parsers themselves; `Except.error` is a
raised parser exception.  `pdfPages` stands for `PdfReader(...).pages`
with the per-page `extract_text() or ""` / `continue` loop already
applied, `docxParas` for `Document(...).paragraphs`, `htmlGetText` for
`BeautifulSoup(html, "html.parser").get_text("\n")`, `csvParse` for
`csv.reader`, `langDetect` for `langdetect.detect`. -/
structure Caps where
  havePdf : Bool
  haveDocx : Bool
  haveBs4 : Bool
  haveLang : Bool
  pdfPages : List Nat → Except String (List String)
  docxParas : List Nat → Except String (List String)
  htmlGetText : String → Except String String
  csvParse : String → Except String (List (List String))
  langDetect : String → Except String String

/-- `"\n".join(xs)`. -/
def joinNL (xs : List String) : String := String.intercalate "\n" xs

/-- `ext = os.path.splitext(filename.lower())[1]`. -/
def extOf (filename : String) : String :=
  String.mk (splitextExt (pyLower filename).data)

/-- `extract_text_from_bytes(filename, raw) -> (text, warnings)`.
The source first handles `.pdf`/`.docx` in an `elif` chain (passing for
the text-like extensions), then `.txt`/`.md`, `.html`/`.htm`, `.json`,
`.csv`, and finally decodes unknown extensions as text; the extension
sets are disjoint, so the dispatch is flattened here in the same
order. -/
def extract_text_from_bytes (caps : Caps) (filename : String) (raw : List Nat) :
    String × List String :=
  let ext := extOf filename
  if ext = ".pdf" then
    if caps.havePdf = false then ("", ["pypdf not installed; cannot extract PDF."])
    else
      match caps.pdfPages raw with
      | .error e => ("", ["PDF parse error: " ++ e])
      | .ok pages =>
        let text := pyStrip (joinNL pages)
        if text = "" then ("", ["PDF contained no extractable text (likely scanned)."])
        else (text, [])
  else if ext = ".docx" then
    if caps.haveDocx = false then ("", ["python-docx not installed; cannot extract DOCX."])
    else
      match caps.docxParas raw with
      | .error e => ("", ["DOCX parse error: " ++ e])
      | .ok paras => (pyStrip (joinNL paras), [])
  else if ext = ".txt" ∨ ext = ".md" then (safe_decode raw, [])
  else if ext = ".html" ∨ ext = ".htm" then
    if caps.haveBs4 = false then ("", ["beautifulsoup4 not installed; cannot extract HTML."])
    else
      match caps.htmlGetText (safe_decode raw) with
      | .error e => ("", ["HTML parse error: " ++ e])
      | .ok text => (text, [])
  else if ext = ".json" then
    match jsonLoads (safe_decode raw) with
    | .error e => ("", ["JSON parse error: " ++ e])
    | .ok v => (joinNL (jsonFlatten v), [])
  else if ext = ".csv" then
    match caps.csvParse (safe_decode raw) with
    | .error e => ("", ["CSV parse error: " ++ e])
    | .ok rows => (joinNL (rows.map (String.intercalate " | ")), [])
  else (safe_decode raw, [])

/-! ## `auto_metadata` -/

structure AutoMeta where
  language_auto : String
  year_auto : Option Nat
  title_auto : String
  words_auto : Nat
  tokens_auto : Nat
deriving Repr, DecidableEq

/-- `auto_metadata(filename, text)`, including the source's Python
truthiness tests (`if not year`, `if not title`). -/
def auto_metadata (caps : Caps) (filename : String) (text : String) : AutoMeta :=
  let lang :=
    if caps.haveLang then
      if ¬ text = "" then
        match caps.langDetect (String.mk (text.data.take 2000)) with
        | .ok l => l
        | .error _ => "unknown"
      else "unknown"
    else "unknown"
  let y1 : Option Nat := (searchYear filename.data).map digitsVal
  let year : Option Nat :=
    if (y1 = none ∨ y1 = some 0) ∧ ¬ text = "" then
      match searchYear (text.data.take 5000) with
      | some m => some (digitsVal m)
      | none => y1
    else y1
  let title0 : Option String :=
    if ¬ text = "" then
      let first := firstNonemptyLine (text.data.splitOn '\n')
      if ¬ first = [] then some (String.mk (first.take 120)) else none
    else none
  let title :=
    match title0 with
    | some t =>
      if ¬ t = "" then t
      else String.mk ((splitextStem (basename filename.data)).take 120)
    | none => String.mk ((splitextStem (basename filename.data)).take 120)
  let counts := estimate_tokens_from_text text
  { language_auto := lang, year_auto := year, title_auto := title,
    words_auto := counts.words, tokens_auto := counts.tokens }

/-! ## The Contribute upload loop

One iteration of `for i, f in enumerate(files, ...)`: hash the raw
bytes, report a duplicate when the digest is already a key of the
index, and otherwise extract, clean, infer metadata and insert a new
record.  `datetime.utcnow()` is the per-file `ts` field of the upload;
the content hash is an abstract function parameter.  Disk writes of the
original and cleaned files are not modelled (the index entry carries
their paths). -/

def ORIG : String := "storage/original"
def STD : String := "storage/standard"

/-- An index record as written by the upload loop (`entry = {...}`).
`clean_path` is `none` when the key is absent from the record. -/
structure Entry where
  path : String
  original_name : String
  contract_label : String
  contract_key : String
  uploaded_at : String
  size_bytes : Nat
  est_tokens : Nat
  est_words : Nat
  status : String
  language : String
  genre : String
  tags : List String
  metadata : AutoMeta
  uploader_id : String
  clean_path : Option String
deriving Repr, DecidableEq

/-- A row of the duplicates report (`duplicate_rows.append({...})`);
`size_pretty`, a pure formatting of `size_bytes`, is omitted. -/
structure DupRow where
  filename : String
  size_bytes : Nat
  est_tokens : Nat
  duplicate_of : String
  uploaded_at_original : String
  contract : String
  language : String
  genre : String
  tags : List String
  uploader_id : String
deriving Repr, DecidableEq

/-- A row of the accepted report (`accepted_rows.append({...})`);
`size_pretty` omitted as above. -/
structure AccRow where
  filename : String
  size_bytes : Nat
  est_words : Nat
  est_tokens : Nat
  saved_as : String
  uploaded_at : String
  contract : String
  language : String
  genre : String
  tags : String
  extraction_warnings : String
  uploader_id : String
deriving Repr, DecidableEq

/-- The request-scoped configuration of one upload submission: the
capability registry, the `auto_clean`/`pii_scrub` session flags, the
selected contract, the manual metadata and the signed-in uploader. -/
structure IngestCfg where
  caps : Caps
  auto_clean : Bool
  pii_scrub : Bool
  contract_label : String
  contract_key : String
  language : String
  genre : String
  tags : List String
  uploader_id : String

/-- One uploaded file: its name, raw bytes, and the
`datetime.utcnow().strftime(...)` timestamp taken for it. -/
structure UpFile where
  name : String
  raw : List Nat
  ts : String
deriving Repr, DecidableEq

/-- The loop state: the index plus the per-batch reports. -/
structure IngestState where
  index : List (String × Entry)
  accepted : List AccRow
  duplicates : List DupRow
  total_tokens : Nat
deriving Repr, DecidableEq

/-- Dict lookup: the index maps each digest to at most one entry (dict
semantics; the association list is only ever extended at fresh keys). -/
def ixLookup (ix : List (String × Entry)) (key : String) : Option Entry :=
  match ix with
  | [] => none
  | kv :: rest => if kv.1 = key then some kv.2 else ixLookup rest key

/-- `f.name.replace(" ", "_")`. -/
def replaceSpaces (s : String) : String :=
  String.mk (s.data.map (fun c => if c = ' ' then '_' else c))

/-- The duplicate report row referencing the previously stored record. -/
def mkDupRow (prev : Entry) (f : UpFile) : DupRow :=
  { filename := f.name, size_bytes := f.raw.length,
    est_tokens := (estimate_tokens_from_bytes f.raw.length).tokens,
    duplicate_of := prev.path, uploaded_at_original := prev.uploaded_at,
    contract := prev.contract_label, language := prev.language,
    genre := prev.genre, tags := prev.tags, uploader_id := prev.uploader_id }

/-- `extracted_text, warns = extract_text_from_bytes(f.name, raw)`. -/
def extractedOf (cfg : IngestCfg) (f : UpFile) : String × List String :=
  extract_text_from_bytes cfg.caps f.name f.raw

/-- `clean_txt`: cleaned text when auto-clean is on and text was
extracted, else `""`. -/
def cleanTxtOf (cfg : IngestCfg) (f : UpFile) : String :=
  if cfg.auto_clean ∧ ¬ (extractedOf cfg f).1 = "" then
    clean_text (extractedOf cfg f).1 cfg.pii_scrub
  else ""

/-- `auto_meta`: from the cleaned text when auto-clean ran, else from
the (possibly empty) extracted text. -/
def autoMetaOf (cfg : IngestCfg) (f : UpFile) : AutoMeta :=
  if cfg.auto_clean ∧ ¬ (extractedOf cfg f).1 = "" then
    auto_metadata cfg.caps f.name (cleanTxtOf cfg f)
  else auto_metadata cfg.caps f.name (extractedOf cfg f).1

/-- `save_path = os.path.join(ORIG, f"{ts}__{clean_name}")`. -/
def savePathOf (f : UpFile) : String :=
  ORIG ++ "/" ++ f.ts ++ "__" ++ replaceSpaces f.name

/-- The cleaned-file path in the `standard` directory. -/
def cleanPathOf (f : UpFile) : String :=
  STD ++ "/" ++ f.ts ++ "__"
    ++ String.mk (splitextStem (replaceSpaces f.name).data) ++ ".clean.txt"

/-- The token/word estimate: cleaned text, else extracted text, else
byte length. -/
def newCounts (cfg : IngestCfg) (f : UpFile) : Counts :=
  if ¬ cleanTxtOf cfg f = "" then estimate_tokens_from_text (cleanTxtOf cfg f)
  else if ¬ (extractedOf cfg f).1 = "" then
    estimate_tokens_from_text (extractedOf cfg f).1
  else estimate_tokens_from_bytes f.raw.length

/-- The index record written for a fresh digest (`entry = {...}`). -/
def mkEntry (cfg : IngestCfg) (f : UpFile) : Entry :=
  { path := savePathOf f, original_name := f.name,
    contract_label := cfg.contract_label, contract_key := cfg.contract_key,
    uploaded_at := f.ts, size_bytes := f.raw.length,
    est_tokens := (newCounts cfg f).tokens, est_words := (newCounts cfg f).words,
    status := "ok",
    language := cfg.language, genre := cfg.genre, tags := cfg.tags,
    metadata := autoMetaOf cfg f, uploader_id := cfg.uploader_id,
    clean_path := if ¬ cleanTxtOf cfg f = "" then some (cleanPathOf f) else none }

/-- The accepted report row (`accepted_rows.append({...})`). -/
def mkAccRow (cfg : IngestCfg) (f : UpFile) : AccRow :=
  { filename := f.name, size_bytes := f.raw.length,
    est_words := (newCounts cfg f).words, est_tokens := (newCounts cfg f).tokens,
    saved_as := savePathOf f, uploaded_at := f.ts,
    contract := cfg.contract_label, language := cfg.language, genre := cfg.genre,
    tags := String.intercalate ", " cfg.tags,
    extraction_warnings :=
      if ¬ (extractedOf cfg f).2 = [] then
        String.intercalate "; " (extractedOf cfg f).2
      else "",
    uploader_id := cfg.uploader_id }

/-- One iteration of the Contribute upload loop. -/
def ingestOne (hash : List Nat → String) (cfg : IngestCfg)
    (st : IngestState) (f : UpFile) : IngestState :=
  match ixLookup st.index (hash f.raw) with
  | some prev => { st with duplicates := st.duplicates ++ [mkDupRow prev f] }
  | none =>
    { index := st.index ++ [(hash f.raw, mkEntry cfg f)],
      accepted := st.accepted ++ [mkAccRow cfg f],
      duplicates := st.duplicates,
      total_tokens := st.total_tokens + (newCounts cfg f).tokens }

/-- The whole batch loop. -/
def ingestAll (hash : List Nat → String) (cfg : IngestCfg)
    (st : IngestState) (files : List UpFile) : IngestState :=
  files.foldl (ingestOne hash cfg) st

/-! ## The Library manifest builder

`filtered` is the filter result over `index_to_rows`; the builder sorts
it by `(r["filename"].lower(), r["sha256"])` (Python's stable sort),
projects each row and aggregates the stats.  Only the fields of the row
dictionaries that the builder reads are modelled. -/

structure Row where
  filename : String
  contract_label : String
  language : String
  genre : String
  tags : List String
  language_auto : String
  year_auto : Option Nat
  title_auto : String
  size_bytes : Nat
  est_tokens : Nat
  uploaded_at : String
  path : String
  clean_path : String
  sha256 : String
  uploader_id : String
deriving Repr, DecidableEq

/-- Lexicographic `≤` on strings as character lists (Python string
comparison by code point). -/
def listCharLe : List Char → List Char → Bool
  | [], _ => true
  | _ :: _, [] => false
  | a :: as, b :: bs =>
    if a.toNat < b.toNat then true
    else if b.toNat < a.toNat then false
    else listCharLe as bs

/-- The sort key comparison `(r["filename"].lower(), r["sha256"])`
(lexicographic pair order on Python strings). -/
def rowKeyLe (a b : Row) : Bool :=
  let ka := (pyLower a.filename).data
  let kb := (pyLower b.filename).data
  if ka = kb then listCharLe a.sha256.data b.sha256.data
  else listCharLe ka kb

/-- Stable insertion: the new row goes after every existing row that
compares `≤` to it, so equal keys keep their first-come order. -/
def insertRow (r : Row) : List Row → List Row
  | [] => [r]
  | x :: xs => if rowKeyLe x r then x :: insertRow r xs else r :: x :: xs

/-- `sorted(filtered, key=lambda r: (r["filename"].lower(), r["sha256"]))`:
a stable sort by the key, embedded as stable insertion sort (any two
stable sorts by the same total preorder agree). -/
def sortRows (rows : List Row) : List Row :=
  rows.foldl (fun acc r => insertRow r acc) []

/-- A `manifest["files"]` element; the nested `paths`/`auto` dicts are
flattened into fields.  `paths.standard` reads `r.get("path_clean", "")`
but the rows carry the key `clean_path`, so it is always `""`. -/
structure ManifestFile where
  filename : String
  path_original : String
  path_standard : String
  size_bytes : Nat
  est_tokens : Nat
  uploaded_at : String
  contract : String
  contract_label : String
  language : String
  genre : String
  tags : List String
  auto_language : String
  auto_year : Option Nat
  auto_title : String
  uploader_id : String
  sha256_raw : String
deriving Repr, DecidableEq

/-- The per-row projection of the manifest builder
(`manifest_files.append({...})`). -/
def toManifestFile (r : Row) : ManifestFile :=
  { filename := r.filename,
    path_original := r.path,        -- r.get("path_original", r.get("path", ""))
    path_standard := "",            -- r.get("path_clean", ""): key absent
    size_bytes := r.size_bytes, est_tokens := r.est_tokens,
    uploaded_at := r.uploaded_at,
    contract := r.contract_label, contract_label := r.contract_label,
    language := r.language, genre := r.genre, tags := r.tags,
    auto_language := r.language_auto, auto_year := r.year_auto,
    auto_title := r.title_auto,
    uploader_id := r.uploader_id, sha256_raw := r.sha256 }

/-- The query echo of the Library manifest. -/
structure QuerySpec where
  filename_contains : String
  contracts : List String
  languages : List String
  genres : List String
  year_enabled : Bool
  year_range : Option (Nat × Nat)
  tags : List String
  tags_match : Option String
deriving Repr, DecidableEq

structure ManifestStats where
  files : Nat
  total_est_tokens : Nat
  total_size_bytes : Nat
deriving Repr, DecidableEq

structure Manifest where
  manifest_id : String
  created_at : String
  query : QuerySpec
  stats : ManifestStats
  files : List ManifestFile
  version : String
deriving Repr, DecidableEq

/-- `re.sub(r'[^A-Za-z0-9_-]+', '-', query_name)[:40]`: each maximal run
of characters outside the class becomes one `-`. -/
def sanitizeKeep (c : Char) : Bool := c.isAlphanum || c = '_' || c = '-'

def sanitizeGo : List Char → List Char
  | [] => []
  | [c] => if sanitizeKeep c then [c] else ['-']
  | c :: d :: rest =>
    if sanitizeKeep c then c :: sanitizeGo (d :: rest)
    else if sanitizeKeep d then '-' :: sanitizeGo (d :: rest)
    else sanitizeGo (d :: rest)

def sanitizeName (s : String) : String :=
  String.mk ((sanitizeGo s.data).take 40)

/-- The Library manifest built from the current filters.  `created` is
`datetime.utcnow().isoformat()+"Z"` and `libId` the
`manifest_%Y%m%dT%H%M%SZ` id, both taken from the clock. -/
def buildManifest (rows : List Row) (query : QuerySpec) (queryName : String)
    (libId : String) (created : String) : Manifest :=
  let filtered_sorted := sortRows rows
  { manifest_id :=
      if queryName = "" then libId else libId ++ "__" ++ sanitizeName queryName,
    created_at := created,
    query := query,
    stats :=
      { files := (filtered_sorted.map toManifestFile).length,
        total_est_tokens := (filtered_sorted.map (fun r => r.est_tokens)).sum,
        total_size_bytes := (filtered_sorted.map (fun r => r.size_bytes)).sum },
    files := filtered_sorted.map toManifestFile,
    version := "v0.6" }

/-! ## Shared concrete instances for witnesses and counterexamples -/

/-- A capability registry with every optional dependency absent and all
oracles raising. -/
def capsAbsent : Caps :=
  { havePdf := false, haveDocx := false, haveBs4 := false, haveLang := false,
    pdfPages := fun _ => .error "no pypdf",
    docxParas := fun _ => .error "no python-docx",
    htmlGetText := fun _ => .error "no bs4",
    csvParse := fun _ => .error "csv failure",
    langDetect := fun _ => .error "no langdetect" }

/-- A concrete upload configuration. -/
def cfgW : IngestCfg :=
  { caps := capsAbsent, auto_clean := true, pii_scrub := true,
    contract_label := "Training Only", contract_key := "training_only",
    language := "English", genre := "Academic", tags := ["law"],
    uploader_id := "u@x" }

/-- The empty loop state. -/
def stEmpty : IngestState :=
  { index := [], accepted := [], duplicates := [], total_tokens := 0 }

/-! # Claim theorems -/

/-! ## C3: token estimation -/

/-- Claim C3: `estimate_tokens_from_text` returns `words` equal to the
number of `WORD_RE` word tokens and `tokens = round(words / 0.75)`
(Python rounding; equivalently `(4·words+1)/3`, no tie ever arises);
`estimate_tokens_from_bytes` returns `tokens = round(n / 4)` and
`words = round(tokens * 0.75)` — two distinct estimation paths.  The
spec's example text has 7 words and 9 estimated tokens. -/
theorem token_estimates_consistent :
    (∀ t : String,
        (estimate_tokens_from_text t).words = wordCount t ∧
        (estimate_tokens_from_text t).tokens = pyRoundDiv (4 * wordCount t) 3 ∧
        (estimate_tokens_from_text t).tokens = (4 * wordCount t + 1) / 3) ∧
    (∀ n : Nat,
        (estimate_tokens_from_bytes n).tokens = pyRoundDiv n 4 ∧
        (estimate_tokens_from_bytes n).words
          = pyRoundDiv (3 * (estimate_tokens_from_bytes n).tokens) 4) ∧
    wordCount "Hello world. This report covers 2019 findings." = 7 ∧
    (estimate_tokens_from_text "Hello world. This report covers 2019 findings.").tokens
      = 9 := by
  refine ⟨fun t => ⟨rfl, rfl, ?_⟩, fun n => ⟨rfl, rfl⟩, by decide, by decide⟩
  simp only [estimate_tokens_from_text, pyRoundDiv]
  split_ifs <;> omega

/-! ## C6: year inference -/

/-- The year rule as the spec states it: search the filename, then the
first 5000 characters of the text, for the first `(19|20)\d{2}` match;
no match at all gives `none`. -/
def yearSpec (filename text : String) : Option Nat :=
  match searchYear filename.data with
  | some m => some (digitsVal m)
  | none =>
    match searchYear (text.data.take 5000) with
    | some m => some (digitsVal m)
    | none => none

theorem searchYear_ge :
    ∀ (cs m : List Char), searchYear cs = some m → 1900 ≤ digitsVal m
  | c1 :: c2 :: c3 :: c4 :: rest, m, h => by
    rw [searchYear] at h
    split at h
    · rename_i hc
      injection h with h'
      subst h'
      have d1 : ('1' : Char).toNat = 49 := rfl
      have d9 : ('9' : Char).toNat = 57 := rfl
      have d2 : ('2' : Char).toNat = 50 := rfl
      have d0 : ('0' : Char).toNat = 48 := rfl
      rcases hc with ⟨h12, -, -⟩
      rcases h12 with ⟨e1, e2⟩ | ⟨e1, e2⟩ <;> subst e1 <;> subst e2 <;>
        simp [digitsVal, List.foldl, d1, d9, d2, d0] <;> omega
    · exact searchYear_ge (c2 :: c3 :: c4 :: rest) m h
  | [], m, h => by simp [searchYear] at h
  | [_], m, h => by simp [searchYear] at h
  | [_, _], m, h => by simp [searchYear] at h
  | [_, _, _], m, h => by simp [searchYear] at h

/-- Claim C6: the inferred year searches the filename first, then the
first 5000 text characters, for a `(19|20)\d{2}` match, first match
winning; with no match the result is `none` — and it is never
`some 0` (so the source's `if not year` truthiness test never
re-triggers on a found year). -/
theorem year_filename_first (caps : Caps) (fn text : String) :
    (auto_metadata caps fn text).year_auto = yearSpec fn text ∧
    ¬ (auto_metadata caps fn text).year_auto = some 0 := by
  have hy : (auto_metadata caps fn text).year_auto =
      (if (((searchYear fn.data).map digitsVal) = none ∨
            ((searchYear fn.data).map digitsVal) = some 0) ∧ ¬ text = "" then
         match searchYear (text.data.take 5000) with
         | some m => some (digitsVal m)
         | none => (searchYear fn.data).map digitsVal
       else (searchYear fn.data).map digitsVal) := rfl
  rw [hy]
  unfold yearSpec
  cases hm : searchYear fn.data with
  | some m =>
    have h19 := searchYear_ge fn.data m hm
    have hmap : (Option.map digitsVal (some m)) = some (digitsVal m) := rfl
    rw [hmap]
    have hcond : ¬ (((some (digitsVal m) : Option Nat) = none ∨
        (some (digitsVal m) : Option Nat) = some 0) ∧ ¬ text = "") := by
      rintro ⟨h | h, -⟩
      · exact Option.noConfusion h
      · have h0 := Option.some.inj h
        omega
    rw [if_neg hcond]
    refine ⟨rfl, ?_⟩
    intro h
    have h0 := Option.some.inj h
    omega
  | none =>
    have hmap : (Option.map digitsVal (none : Option (List Char))) = none := rfl
    rw [hmap]
    by_cases ht : text = ""
    · have hcond : ¬ ((((none : Option Nat)) = none ∨
          ((none : Option Nat)) = some 0) ∧ ¬ text = "") := by
        rintro ⟨-, hne⟩
        exact hne ht
      rw [if_neg hcond]
      subst ht
      have hdata : ("" : String).data = [] := rfl
      rw [hdata]
      exact ⟨by simp [searchYear], fun h => Option.noConfusion h⟩
    · have hcond : (((none : Option Nat)) = none ∨
          ((none : Option Nat)) = some 0) ∧ ¬ text = "" := ⟨Or.inl rfl, ht⟩
      rw [if_pos hcond]
      cases hs : searchYear (text.data.take 5000) with
      | some m =>
        have h19 := searchYear_ge _ m hs
        refine ⟨rfl, ?_⟩
        intro h
        have h0 := Option.some.inj h
        omega
      | none => exact ⟨rfl, fun h => Option.noConfusion h⟩

/-- Witness for C6 at a concrete input (the spec's example filename). -/
theorem year_filename_first_witness :
    (auto_metadata capsAbsent "report_2019.txt" "Body mentions 2019 too.").year_auto
        = yearSpec "report_2019.txt" "Body mentions 2019 too." ∧
    yearSpec "report_2019.txt" "Body mentions 2019 too." = some 2019 :=
  ⟨(year_filename_first capsAbsent "report_2019.txt" "Body mentions 2019 too.").1,
   by decide⟩

/-! ## C7: title inference (corrected) -/

/-- The title rule the code actually implements: the first non-empty
stripped line truncated to 120 characters; only when no such line
exists (or the text is empty) the filename stem, truncated to 120. -/
def titleSpec (filename text : String) : String :=
  let first := if ¬ text = "" then firstNonemptyLine (text.data.splitOn '\n') else []
  if ¬ first = [] then String.mk (first.take 120)
  else String.mk ((splitextStem (basename filename.data)).take 120)

/-- A 130-character first line. -/
def longLine : String := String.mk (List.replicate 130 'a')

/-- Counterexample to claim C7: for a text whose only (non-empty) line
has 130 characters, the inferred title is neither that line (the claim's
"first non-empty line … within the window" reading with a window
reaching 130) nor the filename stem (its fallback reading): the code
truncates the line to 120 characters instead of falling back. -/
theorem title_window_counterexample :
    (auto_metadata capsAbsent "doc.txt" longLine).title_auto
        = String.mk (List.replicate 120 'a') ∧
    ¬ (auto_metadata capsAbsent "doc.txt" longLine).title_auto = longLine ∧
    ¬ (auto_metadata capsAbsent "doc.txt" longLine).title_auto = "doc" := by
  refine ⟨by decide, by decide, by decide⟩

/-- Claim C7 as amended: the title is the first non-empty line
truncated to 120 characters; the filename-stem fallback (also truncated
to 120) applies exactly when the text has no non-empty line. -/
theorem title_first_line_or_stem (caps : Caps) (fn text : String) :
    (auto_metadata caps fn text).title_auto = titleSpec fn text := by
  simp only [auto_metadata, titleSpec]
  by_cases ht : text = ""
  · simp [ht]
  · simp only [ht, not_false_eq_true, if_true, if_pos]
    by_cases hf : firstNonemptyLine (text.data.splitOn '\n') = []
    · simp [hf]
    · have htak : ¬ (firstNonemptyLine (text.data.splitOn '\n')).take 120 = [] := by
        simp only [List.take_eq_nil_iff]
        simp [hf]
      have hmk : ¬ String.mk ((firstNonemptyLine (text.data.splitOn '\n')).take 120) = "" := by
        intro hcontra
        apply htak
        have : (String.mk ((firstNonemptyLine (text.data.splitOn '\n')).take 120)).data
            = ("" : String).data := by rw [hcontra]
        simpa using this
      simp [hf, hmk]

/-! ## C2: cleaner (corrected: not idempotent) -/

/-- Counterexample to claim C2: cleaning is not idempotent.  In
`"a\n b"` the single newline becomes a space (its neighbours are not
newlines), yielding `"a  b"` with two spaces; a second clean collapses
them to one. -/
theorem clean_text_not_idempotent :
    ¬ clean_text (clean_text "a\n b" false) false = clean_text "a\n b" false := by
  decide

theorem dropWhile_eq_self_of_prefix (p : Char → Bool) :
    ∀ (v t u : List Char), v ++ t = u → u.dropWhile p = u → v.dropWhile p = v := by
  intro v t u hvt hu
  cases v with
  | nil => rfl
  | cons a v2 =>
    subst hvt
    rw [List.cons_append, List.dropWhile_cons] at hu
    rw [List.dropWhile_cons]
    split at hu
    · have hlen := congrArg List.length hu
      have hle := dropWhile_length_le p (v2 ++ t)
      rw [List.length_cons] at hlen
      omega
    · rename_i hpa
      rw [if_neg hpa]

theorem stripL_idem (l : List Char) : stripL (stripL l) = stripL l := by
  have hrw : ∀ m : List Char,
      stripL m = List.rdropWhile isSpaceChar (m.dropWhile isSpaceChar) :=
    fun m => rfl
  rw [hrw, hrw]
  obtain ⟨t, ht⟩ := List.rdropWhile_prefix isSpaceChar (l.dropWhile isSpaceChar)
  have hdrop := dropWhile_eq_self_of_prefix isSpaceChar _ t _ ht
      (List.dropWhile_idempotent isSpaceChar l)
  rw [hdrop, List.rdropWhile_idempotent]

theorem pyStrip_mk_stripL (l : List Char) :
    pyStrip (String.mk (stripL l)) = String.mk (stripL l) := by
  simp only [pyStrip]
  rw [stripL_idem]

/-- Claim C2 as amended: `clean_text` is a deterministic total function
with `clean_text("", pii) = ""` (and its output carries no leading or
trailing whitespace), but it is **not** idempotent. -/
theorem clean_text_total_empty (pii : Bool) :
    clean_text "" pii = "" ∧
    ∀ s : String, pyStrip (clean_text s pii) = clean_text s pii := by
  refine ⟨rfl, fun s => ?_⟩
  by_cases hs : s = ""
  · subst hs
    rfl
  · simp only [clean_text, if_neg hs]
    exact pyStrip_mk_stripL _

/-! ## C8: PII substitutions overlap (corrected) -/

/-- Counterexample to claim C8: the email and phone patterns overlap on
an all-digit local part.  On `"1234567890@example.com"` the implemented
email-first order replaces the whole address with `[EMAIL]`, while
applying the phone substitution first yields `"[PHONE]@example.com"`. -/
theorem pii_order_counterexample :
    ¬ subUrl (subEmail (subPhone "1234567890@example.com"))
        = piiScrubImpl "1234567890@example.com" := by
  decide

/-- Claim C8 as amended: the three PII substitutions are applied in the
implemented order email → phone → URL, and that order is load-bearing:
the patterns are not non-overlapping (a ten-digit email local part also
matches `PHONE_RE`), so a phone-first order yields a different cleaned
output. -/
theorem pii_order_load_bearing :
    (∀ s : String, piiScrubImpl s = subUrl (subPhone (subEmail s))) ∧
    piiScrubImpl "1234567890@example.com" = "[EMAIL]" ∧
    subUrl (subEmail (subPhone "1234567890@example.com"))
        = "[PHONE]@example.com" :=
  ⟨fun _ => rfl, by decide, by decide⟩

/-! ## C1: dedupe -/

theorem ixLookup_append_of_none (ix : List (String × Entry)) (k : String) (e : Entry)
    (h : ixLookup ix k = none) : ixLookup (ix ++ [(k, e)]) k = some e := by
  induction ix with
  | nil => simp [ixLookup]
  | cons kv rest ih =>
    rw [ixLookup] at h
    rw [List.cons_append, ixLookup]
    split at h
    · exact absurd h (by simp)
    · rename_i hne
      rw [if_neg hne]
      exact ih h

theorem ixLookup_none_not_mem (ix : List (String × Entry)) (k : String)
    (h : ixLookup ix k = none) : ¬ k ∈ ix.map Prod.fst := by
  induction ix with
  | nil => simp
  | cons kv rest ih =>
    rw [ixLookup] at h
    split at h
    · exact absurd h (by simp)
    · rename_i hne
      simp only [List.map_cons, List.mem_cons]
      rintro (hk | hk)
      · exact hne hk.symm
      · exact ih h hk

theorem ingestOne_nodup (hash : List Nat → String) (cfg : IngestCfg)
    (st : IngestState) (f : UpFile)
    (h : (st.index.map Prod.fst).Nodup) :
    (((ingestOne hash cfg st f).index).map Prod.fst).Nodup := by
  cases hl : ixLookup st.index (hash f.raw) with
  | some prev =>
    have he : (ingestOne hash cfg st f).index = st.index := by
      unfold ingestOne
      rw [hl]
    rw [he]
    exact h
  | none =>
    have he : (ingestOne hash cfg st f).index
        = st.index ++ [(hash f.raw, mkEntry cfg f)] := by
      unfold ingestOne
      rw [hl]
    rw [he]
    simp only [List.map_append, List.map_cons, List.map_nil]
    rw [List.nodup_append]
    refine ⟨h, List.nodup_singleton _, ?_⟩
    intro a ha hb
    simp only [List.mem_singleton] at hb
    subst hb
    exact ixLookup_none_not_mem st.index (hash f.raw) hl ha

theorem ingestAll_nodup (hash : List Nat → String) (cfg : IngestCfg) :
    ∀ (files : List UpFile) (st : IngestState),
      (st.index.map Prod.fst).Nodup →
      (((ingestAll hash cfg st files).index).map Prod.fst).Nodup
  | [], _, h => h
  | f :: files, st, h =>
    ingestAll_nodup hash cfg files (ingestOne hash cfg st f)
      (ingestOne_nodup hash cfg st f h)

/-- Claim C1: when the digest of an upload already occurs as a key of
the index, the ingest step creates no new record and leaves the whole
index (in particular the existing record at that digest) unchanged; the
upload is reported only as a duplicate row referencing the record
stored at that digest — its saved path and its original timestamp — and
any sequence of ingests preserves key uniqueness, so each digest maps
to at most one record. -/
theorem dedupe_no_new_record (hash : List Nat → String) (cfg : IngestCfg)
    (st : IngestState) (f : UpFile) (prev : Entry)
    (h : ixLookup st.index (hash f.raw) = some prev) :
    (ingestOne hash cfg st f).index = st.index ∧
    (ingestOne hash cfg st f).accepted = st.accepted ∧
    ixLookup (ingestOne hash cfg st f).index (hash f.raw) = some prev ∧
    (ingestOne hash cfg st f).duplicates = st.duplicates ++
      [{ filename := f.name, size_bytes := f.raw.length,
         est_tokens := (estimate_tokens_from_bytes f.raw.length).tokens,
         duplicate_of := prev.path, uploaded_at_original := prev.uploaded_at,
         contract := prev.contract_label, language := prev.language,
         genre := prev.genre, tags := prev.tags,
         uploader_id := prev.uploader_id }] ∧
    (∀ (files : List UpFile) (st0 : IngestState),
      (st0.index.map Prod.fst).Nodup →
      (((ingestAll hash cfg st0 files).index).map Prod.fst).Nodup) := by
  refine ⟨?_, ?_, ?_, ?_, fun files st0 h0 => ingestAll_nodup hash cfg files st0 h0⟩ <;>
    simp [ingestOne, mkDupRow, h]

/-- A pre-populated index entry for the C1 witness. -/
def entryW : Entry :=
  { path := "storage/original/T0__first.txt", original_name := "first.txt",
    contract_label := "Training Only", contract_key := "training_only",
    uploaded_at := "T0", size_bytes := 2, est_tokens := 1, est_words := 1,
    status := "ok", language := "English", genre := "Academic", tags := [],
    metadata := { language_auto := "unknown", year_auto := none,
                  title_auto := "first", words_auto := 1, tokens_auto := 1 },
    uploader_id := "u@x", clean_path := none }

/-- A loop state already holding `entryW` under digest "k". -/
def stW : IngestState :=
  { index := [("k", entryW)], accepted := [], duplicates := [], total_tokens := 0 }

/-- A second upload of byte-identical content under another name. -/
def fW : UpFile := { name := "second.txt", raw := [104, 105], ts := "T1" }

/-- Witness for C1: a concrete duplicate upload leaves the index
unchanged and reports the original's path and timestamp. -/
theorem dedupe_no_new_record_witness :
    ixLookup stW.index ((fun _ => "k") fW.raw) = some entryW ∧
    (ingestOne (fun _ => "k") cfgW stW fW).index = stW.index ∧
    (ingestOne (fun _ => "k") cfgW stW fW).duplicates = stW.duplicates ++
      [{ filename := fW.name, size_bytes := fW.raw.length,
         est_tokens := (estimate_tokens_from_bytes fW.raw.length).tokens,
         duplicate_of := entryW.path, uploaded_at_original := entryW.uploaded_at,
         contract := entryW.contract_label, language := entryW.language,
         genre := entryW.genre, tags := entryW.tags,
         uploader_id := entryW.uploader_id }] :=
  ⟨by decide,
   (dedupe_no_new_record (fun _ => "k") cfgW stW fW entryW (by decide)).1,
   (dedupe_no_new_record (fun _ => "k") cfgW stW fW entryW (by decide)).2.2.2.1⟩

/-! ## C4: extraction degrades, never raises -/

/-- Claim C4: `extract_text_from_bytes` is a total function into
`(text, warnings)` (in this embedding every raised third-party parser
exception is an `Except.error`, and every such error is converted): a
missing optional capability for `.pdf`/`.docx`/`.html` yields empty
text plus a warning naming the missing package, and every parse failure
(PDF, DOCX, HTML, JSON, CSV, and the no-extractable-text PDF case)
yields `("", [warning])`. -/
theorem extract_never_raises (caps : Caps) (fn : String) (raw : List Nat) :
    (extOf fn = ".pdf" → caps.havePdf = false →
        extract_text_from_bytes caps fn raw
          = ("", ["pypdf not installed; cannot extract PDF."])) ∧
    (extOf fn = ".docx" → caps.haveDocx = false →
        extract_text_from_bytes caps fn raw
          = ("", ["python-docx not installed; cannot extract DOCX."])) ∧
    ((extOf fn = ".html" ∨ extOf fn = ".htm") → caps.haveBs4 = false →
        extract_text_from_bytes caps fn raw
          = ("", ["beautifulsoup4 not installed; cannot extract HTML."])) ∧
    (∀ e, extOf fn = ".pdf" → caps.havePdf = true → caps.pdfPages raw = .error e →
        extract_text_from_bytes caps fn raw = ("", ["PDF parse error: " ++ e])) ∧
    (∀ e, extOf fn = ".docx" → caps.haveDocx = true → caps.docxParas raw = .error e →
        extract_text_from_bytes caps fn raw = ("", ["DOCX parse error: " ++ e])) ∧
    (∀ e, (extOf fn = ".html" ∨ extOf fn = ".htm") → caps.haveBs4 = true →
        caps.htmlGetText (safe_decode raw) = .error e →
        extract_text_from_bytes caps fn raw = ("", ["HTML parse error: " ++ e])) ∧
    (∀ e, extOf fn = ".json" → jsonLoads (safe_decode raw) = .error e →
        extract_text_from_bytes caps fn raw = ("", ["JSON parse error: " ++ e])) ∧
    (∀ e, extOf fn = ".csv" → caps.csvParse (safe_decode raw) = .error e →
        extract_text_from_bytes caps fn raw = ("", ["CSV parse error: " ++ e])) ∧
    (∀ pages, extOf fn = ".pdf" → caps.havePdf = true →
        caps.pdfPages raw = .ok pages → pyStrip (joinNL pages) = "" →
        extract_text_from_bytes caps fn raw
          = ("", ["PDF contained no extractable text (likely scanned)."])) := by
  refine ⟨?_, ?_, ?_, ?_, ?_, ?_, ?_, ?_, ?_⟩
  · intro hext hcap
    simp [extract_text_from_bytes, hext, hcap]
  · intro hext hcap
    simp [extract_text_from_bytes, hext, hcap]
  · rintro (hext | hext) hcap <;> simp [extract_text_from_bytes, hext, hcap]
  · intro e hext hcap herr
    simp [extract_text_from_bytes, hext, hcap, herr]
  · intro e hext hcap herr
    simp [extract_text_from_bytes, hext, hcap, herr]
  · rintro e (hext | hext) hcap herr <;>
      simp [extract_text_from_bytes, hext, hcap, herr]
  · intro e hext herr
    simp [extract_text_from_bytes, hext, herr]
  · intro e hext herr
    simp [extract_text_from_bytes, hext, herr]
  · intro pages hext hcap hok hempty
    simp [extract_text_from_bytes, hext, hcap, hok, hempty]

/-- Witness for C4: a `.pdf` upload with pypdf absent, and a `.csv`
upload whose csv oracle raises, both degrade to
`("", [descriptive warning])`. -/
theorem extract_never_raises_witness :
    extOf "x.pdf" = ".pdf" ∧ capsAbsent.havePdf = false ∧
    extract_text_from_bytes capsAbsent "x.pdf" [37]
      = ("", ["pypdf not installed; cannot extract PDF."]) ∧
    extOf "t.csv" = ".csv" ∧ capsAbsent.csvParse (safe_decode [104]) = .error "csv failure" ∧
    extract_text_from_bytes capsAbsent "t.csv" [104]
      = ("", ["CSV parse error: " ++ "csv failure"]) :=
  ⟨by decide, by decide,
   (extract_never_raises capsAbsent "x.pdf" [37]).1 (by decide) (by decide),
   by decide, rfl,
   (extract_never_raises capsAbsent "t.csv" [104]).2.2.2.2.2.2.2.1 "csv failure"
     (by decide) rfl⟩

/-! ## C5: records with no extractable text (corrected) -/

/-- An upload whose filename carries a year and whose extension has no
available extractor. -/
def fY : UpFile := { name := "a2019.pdf", raw := [37], ts := "T1" }

/-- Counterexample to claim C5: a record ingested with no extracted
text does **not** have all inferred-metadata fields at their sentinel
values — the year is still inferred from the filename and the title
falls back to the filename stem. -/
theorem no_text_metadata_counterexample :
    (extract_text_from_bytes capsAbsent "a2019.pdf" [37])
      = ("", ["pypdf not installed; cannot extract PDF."]) ∧
    ((ingestOne (fun _ => "d1") cfgW stEmpty fY).index.map
        (fun kv => (kv.2.metadata.year_auto, kv.2.metadata.title_auto,
          kv.2.status, kv.2.clean_path)))
      = [(some 2019, "a2019", "ok", none)] := by
  refine ⟨by decide, by decide⟩

/-- Claim C5 as amended: a record ingested from an upload with no
extracted text is still created with status `ok`; its `clean_path` is
absent and its inferred language / word count / token count are at
their sentinels (`"unknown"`, 0, 0), while the inferred year may still
come from the filename and the title falls back to the filename stem;
the record's own token estimate comes from the byte-length path. -/
theorem no_text_record_fields (hash : List Nat → String) (cfg : IngestCfg)
    (st : IngestState) (f : UpFile)
    (hnew : ixLookup st.index (hash f.raw) = none)
    (hempty : (extract_text_from_bytes cfg.caps f.name f.raw).1 = "") :
    ∃ e : Entry,
      ixLookup (ingestOne hash cfg st f).index (hash f.raw) = some e ∧
      e.status = "ok" ∧
      e.clean_path = none ∧
      e.metadata.language_auto = "unknown" ∧
      e.metadata.words_auto = 0 ∧
      e.metadata.tokens_auto = 0 ∧
      e.metadata.year_auto = (searchYear f.name.data).map digitsVal ∧
      e.metadata.title_auto
        = String.mk ((splitextStem (basename f.name.data)).take 120) ∧
      e.est_tokens = (estimate_tokens_from_bytes f.raw.length).tokens := by
  have hempty2 : (extractedOf cfg f).1 = "" := hempty
  have hclean : cleanTxtOf cfg f = "" := by
    unfold cleanTxtOf
    rw [if_neg]
    rintro ⟨-, hne⟩
    exact hne hempty2
  have hmeta : autoMetaOf cfg f = auto_metadata cfg.caps f.name "" := by
    unfold autoMetaOf
    rw [if_neg (by rintro ⟨-, hne⟩; exact hne hempty2)]
    rw [hempty2]
  have he : (ingestOne hash cfg st f).index
      = st.index ++ [(hash f.raw, mkEntry cfg f)] := by
    unfold ingestOne
    rw [hnew]
  refine ⟨mkEntry cfg f, ?_, rfl, ?_, ?_, ?_, ?_, ?_, ?_, ?_⟩
  · rw [he]
    exact ixLookup_append_of_none st.index (hash f.raw) _ hnew
  · show (if ¬ cleanTxtOf cfg f = "" then some (cleanPathOf f) else none) = none
    rw [hclean]
    simp
  · show (autoMetaOf cfg f).language_auto = "unknown"
    rw [hmeta]
    cases hcap : cfg.caps.haveLang <;> simp [auto_metadata, hcap]
  · show (autoMetaOf cfg f).words_auto = 0
    rw [hmeta]
    rfl
  · show (autoMetaOf cfg f).tokens_auto = 0
    rw [hmeta]
    rfl
  · show (autoMetaOf cfg f).year_auto = (searchYear f.name.data).map digitsVal
    rw [hmeta]
    have hy : (auto_metadata cfg.caps f.name "").year_auto =
        (if (((searchYear f.name.data).map digitsVal) = none ∨
              ((searchYear f.name.data).map digitsVal) = some 0) ∧
            ¬ ("" : String) = "" then
           match searchYear (("" : String).data.take 5000) with
           | some m => some (digitsVal m)
           | none => (searchYear f.name.data).map digitsVal
         else (searchYear f.name.data).map digitsVal) := rfl
    rw [hy, if_neg (by rintro ⟨-, hne⟩; exact hne rfl)]
  · show (autoMetaOf cfg f).title_auto
        = String.mk ((splitextStem (basename f.name.data)).take 120)
    rw [hmeta]
    rfl
  · show (newCounts cfg f).tokens = (estimate_tokens_from_bytes f.raw.length).tokens
    unfold newCounts
    rw [hclean, hempty2]
    simp

/-- Witness for C5's amended theorem at a concrete input. -/
theorem no_text_record_fields_witness :
    ixLookup stEmpty.index ((fun _ => "d1") fY.raw) = none ∧
    (extract_text_from_bytes cfgW.caps fY.name fY.raw).1 = "" ∧
    ∃ e : Entry,
      ixLookup (ingestOne (fun _ => "d1") cfgW stEmpty fY).index
          ((fun _ => "d1") fY.raw) = some e ∧
      e.status = "ok" ∧
      e.clean_path = none ∧
      e.metadata.language_auto = "unknown" ∧
      e.metadata.words_auto = 0 ∧
      e.metadata.tokens_auto = 0 ∧
      e.metadata.year_auto = (searchYear fY.name.data).map digitsVal ∧
      e.metadata.title_auto
        = String.mk ((splitextStem (basename fY.name.data)).take 120) ∧
      e.est_tokens = (estimate_tokens_from_bytes fY.raw.length).tokens :=
  ⟨by decide, by decide,
   no_text_record_fields (fun _ => "d1") cfgW stEmpty fY (by decide) (by decide)⟩

/-! ## C9: the manifest builder -/

theorem listCharLe_total : ∀ a b : List Char,
    listCharLe a b = true ∨ listCharLe b a = true
  | [], _ => Or.inl rfl
  | _ :: _, [] => Or.inr rfl
  | a :: as, b :: bs => by
    simp only [listCharLe]
    by_cases h1 : a.toNat < b.toNat
    · exact Or.inl (by rw [if_pos h1])
    · by_cases h2 : b.toNat < a.toNat
      · exact Or.inr (by rw [if_pos h2])
      · rw [if_neg h1, if_neg h2, if_neg h2, if_neg h1]
        exact listCharLe_total as bs

theorem listCharLe_trans : ∀ a b c : List Char,
    listCharLe a b = true → listCharLe b c = true → listCharLe a c = true
  | [], _, _, _, _ => rfl
  | _ :: _, [], _, h1, _ => by simp [listCharLe] at h1
  | _ :: _, _ :: _, [], _, h2 => by simp [listCharLe] at h2
  | a :: as, b :: bs, c :: cs, h1, h2 => by
    simp only [listCharLe] at h1 h2 ⊢
    by_cases hab : a.toNat < b.toNat
    · by_cases hbc : b.toNat < c.toNat
      · rw [if_pos (by omega)]
      · by_cases hcb : c.toNat < b.toNat
        · rw [if_neg hbc, if_pos hcb] at h2
          exact absurd h2 (by simp)
        · rw [if_pos (by omega)]
    · by_cases hba : b.toNat < a.toNat
      · rw [if_neg hab, if_pos hba] at h1
        exact absurd h1 (by simp)
      · rw [if_neg hab, if_neg hba] at h1
        by_cases hbc : b.toNat < c.toNat
        · rw [if_pos (by omega)]
        · by_cases hcb : c.toNat < b.toNat
          · rw [if_neg hbc, if_pos hcb] at h2
            exact absurd h2 (by simp)
          · rw [if_neg hbc, if_neg hcb] at h2
            rw [if_neg (by omega), if_neg (by omega)]
            exact listCharLe_trans as bs cs h1 h2

theorem listCharLe_antisymm : ∀ a b : List Char,
    listCharLe a b = true → listCharLe b a = true → a = b
  | [], [], _, _ => rfl
  | [], _ :: _, _, h2 => by simp [listCharLe] at h2
  | _ :: _, [], h1, _ => by simp [listCharLe] at h1
  | a :: as, b :: bs, h1, h2 => by
    simp only [listCharLe] at h1 h2
    by_cases hab : a.toNat < b.toNat
    · rw [if_neg (by omega), if_pos hab] at h2
      exact absurd h2 (by simp)
    · by_cases hba : b.toNat < a.toNat
      · rw [if_neg hab, if_pos hba] at h1
        exact absurd h1 (by simp)
      · rw [if_neg hab, if_neg hba] at h1
        rw [if_neg hba, if_neg hab] at h2
        have hchar : a = b := by
          have hv : a.val.toNat = b.val.toNat := by
            show a.toNat = b.toNat
            omega
          exact Char.ext (UInt32.toNat.inj hv)
        rw [hchar, listCharLe_antisymm as bs h1 h2]

theorem rowKeyLe_total (a b : Row) :
    rowKeyLe a b = true ∨ rowKeyLe b a = true := by
  unfold rowKeyLe
  by_cases h : (pyLower a.filename).data = (pyLower b.filename).data
  · rw [if_pos h, if_pos h.symm]
    exact listCharLe_total _ _
  · rw [if_neg h, if_neg (fun hh => h hh.symm)]
    exact listCharLe_total _ _

theorem rowKeyLe_trans (a b c : Row) :
    rowKeyLe a b = true → rowKeyLe b c = true → rowKeyLe a c = true := by
  unfold rowKeyLe
  intro h1 h2
  by_cases hab : (pyLower a.filename).data = (pyLower b.filename).data <;>
    by_cases hbc : (pyLower b.filename).data = (pyLower c.filename).data
  · rw [if_pos hab] at h1
    rw [if_pos hbc] at h2
    rw [if_pos (hab.trans hbc)]
    exact listCharLe_trans _ _ _ h1 h2
  · rw [if_pos hab] at h1
    rw [if_neg hbc] at h2
    rw [if_neg (fun h => hbc (hab ▸ h)), hab]
    exact h2
  · rw [if_neg hab] at h1
    rw [if_pos hbc] at h2
    rw [if_neg (fun h => hab (h.trans hbc.symm)), ← hbc]
    exact h1
  · rw [if_neg hab] at h1
    rw [if_neg hbc] at h2
    have hac : ¬ (pyLower a.filename).data = (pyLower c.filename).data := by
      intro h
      exact hab (listCharLe_antisymm _ _ h1 (h ▸ h2))
    rw [if_neg hac]
    exact listCharLe_trans _ _ _ h1 h2

theorem insertRow_perm (r : Row) : ∀ l : List Row, (insertRow r l).Perm (r :: l)
  | [] => List.Perm.refl _
  | x :: xs => by
    rw [insertRow]
    split
    · exact ((insertRow_perm r xs).cons x).trans (List.Perm.swap r x xs)
    · exact List.Perm.refl _

theorem sortRowsAux_perm :
    ∀ (l acc : List Row),
      (l.foldl (fun a r => insertRow r a) acc).Perm (acc ++ l)
  | [], acc => by simp
  | r :: l, acc => by
    rw [List.foldl_cons]
    refine (sortRowsAux_perm l (insertRow r acc)).trans ?_
    refine (((insertRow_perm r acc).append_right l)).trans ?_
    exact List.perm_middle.symm

theorem sortRows_perm (rows : List Row) : (sortRows rows).Perm rows := by
  have := sortRowsAux_perm rows []
  simpa [sortRows] using this

theorem insertRow_sorted (r : Row) :
    ∀ l : List Row, l.Pairwise (fun a b => rowKeyLe a b = true) →
      (insertRow r l).Pairwise (fun a b => rowKeyLe a b = true)
  | [], _ => by simp [insertRow]
  | x :: xs, h => by
    rw [insertRow]
    rcases List.pairwise_cons.mp h with ⟨hx, hxs⟩
    split
    · rename_i hxr
      refine List.pairwise_cons.mpr ⟨?_, insertRow_sorted r xs hxs⟩
      intro y hy
      have hmem : y = r ∨ y ∈ xs := by
        have := (insertRow_perm r xs).mem_iff.mp hy
        simpa using this
      rcases hmem with rfl | hyxs
      · exact hxr
      · exact hx y hyxs
    · rename_i hxr
      have hrx : rowKeyLe r x = true := by
        rcases rowKeyLe_total r x with hh | hh
        · exact hh
        · exact absurd hh hxr
      refine List.pairwise_cons.mpr ⟨?_, h⟩
      intro y hy
      rcases List.mem_cons.mp hy with rfl | hyxs
      · exact hrx
      · exact rowKeyLe_trans r x y hrx (hx y hyxs)

theorem sortRowsAux_sorted :
    ∀ (l acc : List Row),
      acc.Pairwise (fun a b => rowKeyLe a b = true) →
      (l.foldl (fun a r => insertRow r a) acc).Pairwise
        (fun a b => rowKeyLe a b = true)
  | [], _, h => h
  | r :: l, acc, h =>
    sortRowsAux_sorted l (insertRow r acc) (insertRow_sorted r acc h)

theorem sortRows_sorted (rows : List Row) :
    (sortRows rows).Pairwise (fun a b => rowKeyLe a b = true) :=
  sortRowsAux_sorted rows [] List.Pairwise.nil

/-- The sort key on projected manifest files: case-lowered filename,
tie-broken by `sha256_raw`. -/
def mfKeyLe (a b : ManifestFile) : Bool :=
  if (pyLower a.filename).data = (pyLower b.filename).data then
    listCharLe a.sha256_raw.data b.sha256_raw.data
  else listCharLe (pyLower a.filename).data (pyLower b.filename).data

theorem mfKeyLe_project (a b : Row) :
    mfKeyLe (toManifestFile a) (toManifestFile b) = rowKeyLe a b := rfl

/-- Claim C9: the manifest's `files` section is ordered by the
(case-lowered) filename with ties broken by digest; its `stats` are
exactly the file count, the sum of estimated tokens and the sum of byte
sizes over the given filtered records; and two builds from the same
record set and query agree on `stats` and `files` — only `created_at`
and the id differ. -/
theorem manifest_sorted_stats_deterministic
    (rows : List Row) (query : QuerySpec) (qn : String)
    (id1 id2 t1 t2 : String) :
    ((buildManifest rows query qn id1 t1).files.Pairwise
        (fun a b => mfKeyLe a b = true)) ∧
    (buildManifest rows query qn id1 t1).stats.files = rows.length ∧
    (buildManifest rows query qn id1 t1).stats.total_est_tokens
        = (rows.map (fun r => r.est_tokens)).sum ∧
    (buildManifest rows query qn id1 t1).stats.total_size_bytes
        = (rows.map (fun r => r.size_bytes)).sum ∧
    (buildManifest rows query qn id1 t1).files
        = (buildManifest rows query qn id2 t2).files ∧
    (buildManifest rows query qn id1 t1).stats
        = (buildManifest rows query qn id2 t2).stats := by
  refine ⟨?_, ?_, ?_, ?_, rfl, rfl⟩
  · show ((sortRows rows).map toManifestFile).Pairwise
        (fun a b => mfKeyLe a b = true)
    rw [List.pairwise_map]
    have := sortRows_sorted rows
    exact this.imp (fun hab => by rw [mfKeyLe_project]; exact hab)
  · show ((sortRows rows).map toManifestFile).length = rows.length
    rw [List.length_map]
    exact (sortRows_perm rows).length_eq
  · show ((sortRows rows).map (fun r => r.est_tokens)).sum
        = (rows.map (fun r => r.est_tokens)).sum
    exact ((sortRows_perm rows).map (fun r => r.est_tokens)).sum_eq
  · show ((sortRows rows).map (fun r => r.size_bytes)).sum
        = (rows.map (fun r => r.size_bytes)).sum
    exact ((sortRows_perm rows).map (fun r => r.size_bytes)).sum_eq

/-! ## C10: the JSON index store round-trips

The development below proves that `json.load` parses back exactly what
`json.dump(ix, ensure_ascii=False, indent=2)` wrote. -/

/-- After a number the next character must not extend it (the printed
context always separates numbers with `,`, `\n`, `]` or `}`). -/
def numDelim : List Char → Prop
  | [] => True
  | c :: _ => c.isDigit = false ∧ ¬ c = '.' ∧ ¬ c = 'e' ∧ ¬ c = 'E'

/-- The context condition for parsing a dumped value: only numbers
constrain what may follow. -/
def numOk : Json → List Char → Prop
  | .num _, rest => numDelim rest
  | _, _ => True

theorem skipWs_cons_of_ws (c : Char) (h : jsonWs c = true) (l : List Char) :
    skipWs (c :: l) = skipWs l := by
  simp [skipWs, List.dropWhile_cons, h]

theorem skipWs_cons_of_not_ws (c : Char) (h : jsonWs c = false) (l : List Char) :
    skipWs (c :: l) = c :: l := by
  simp [skipWs, List.dropWhile_cons, h]

theorem skipWs_replicate_space (m : Nat) (l : List Char) :
    skipWs (List.replicate m ' ' ++ l) = skipWs l := by
  induction m with
  | zero => rfl
  | succ m ih =>
    rw [List.replicate_succ, List.cons_append, skipWs_cons_of_ws ' ' (by decide)]
    exact ih

theorem skipWs_indent (k : Nat) (l : List Char) :
    skipWs (indentChars k ++ l) = skipWs l := skipWs_replicate_space (2 * k) l

theorem skipWs_idem (s : List Char) : skipWs (skipWs s) = skipWs s :=
  List.dropWhile_idempotent jsonWs s

theorem isDigit_toNat (c : Char) (h : c.isDigit = true) :
    48 ≤ c.toNat ∧ c.toNat ≤ 57 := by
  simp [Char.isDigit] at h
  exact h

theorem isDigit_of_toNat (c : Char) (h1 : 48 ≤ c.toNat) (h2 : c.toNat ≤ 57) :
    c.isDigit = true := by
  simp [Char.isDigit]
  exact ⟨h1, h2⟩

theorem natDigits_ne_nil (n : Nat) : ¬ natDigits n = [] := by
  rw [natDigits]
  split
  · simp
  · simp

theorem charOfNat_toNat_small : ∀ m, m < 128 → (Char.ofNat m).toNat = m := by
  decide

theorem natDigits_all_digit (n : Nat) : ∀ c ∈ natDigits n, c.isDigit = true := by
  induction n using Nat.strong_induction_on with
  | _ n ih =>
    intro c hc
    rw [natDigits] at hc
    split at hc
    · rename_i hn
      simp only [List.mem_singleton] at hc
      subst hc
      interval_cases n <;> decide
    · rename_i hn
      rw [List.mem_append] at hc
      rcases hc with hc | hc
      · exact ih (n / 10) (by omega) c hc
      · simp only [List.mem_singleton] at hc
        subst hc
        apply isDigit_of_toNat <;>
          rw [charOfNat_toNat_small (48 + n % 10) (by omega)] <;> omega

theorem digitsVal_append (l : List Char) (d : Char) :
    digitsVal (l ++ [d]) = 10 * digitsVal l + (d.toNat - 48) := by
  simp [digitsVal, List.foldl_append]

theorem digitsVal_natDigits (n : Nat) : digitsVal (natDigits n) = n := by
  induction n using Nat.strong_induction_on with
  | _ n ih =>
    rw [natDigits]
    split
    · rename_i hn
      simp only [digitsVal, List.foldl_cons, List.foldl_nil]
      rw [charOfNat_toNat_small (48 + n) (by omega)]
      omega
    · rename_i hn
      rw [digitsVal_append, ih (n / 10) (by omega),
        charOfNat_toNat_small (48 + n % 10) (by omega)]
      omega

theorem natDigits_head_ne_zero (n : Nat) :
    0 < n → ∀ d ds, natDigits n = d :: ds → ¬ d = '0' := by
  induction n using Nat.strong_induction_on with
  | _ n ih =>
    intro hn d ds hd
    rw [natDigits] at hd
    split at hd
    · rename_i h10
      injection hd with h1 _
      subst h1
      intro hcontra
      have := charOfNat_toNat_small (48 + n) (by omega)
      rw [hcontra] at this
      have h0 : ('0' : Char).toNat = 48 := rfl
      omega
    · rename_i h10
      obtain ⟨d2, ds2, hd2⟩ :
          ∃ d2 ds2, natDigits (n / 10) = d2 :: ds2 := by
        cases hnd : natDigits (n / 10) with
        | nil => exact absurd hnd (natDigits_ne_nil _)
        | cons a t => exact ⟨a, t, rfl⟩
      rw [hd2, List.cons_append] at hd
      injection hd with h1 _
      subst h1
      exact ih (n / 10) (by omega) (by omega) d2 ds2 hd2

theorem takeWhile_append_all (p : Char → Bool) :
    ∀ (l r : List Char), (∀ c ∈ l, p c = true) →
      (l ++ r).takeWhile p = l ++ r.takeWhile p
  | [], _, _ => rfl
  | c :: l, r, h => by
    rw [List.cons_append, List.takeWhile_cons, if_pos (h c (by simp)),
      takeWhile_append_all p l r (fun x hx => h x (by simp [hx])),
      List.cons_append]

theorem dropWhile_append_all (p : Char → Bool) :
    ∀ (l r : List Char), (∀ c ∈ l, p c = true) →
      (l ++ r).dropWhile p = r.dropWhile p
  | [], _, _ => rfl
  | c :: l, r, h => by
    rw [List.cons_append, List.dropWhile_cons, if_pos (h c (by simp))]
    exact dropWhile_append_all p l r (fun x hx => h x (by simp [hx]))

theorem takeWhile_digit_stop (rest : List Char) (h : numDelim rest) :
    rest.takeWhile Char.isDigit = [] := by
  cases rest with
  | nil => rfl
  | cons c t =>
    obtain ⟨h1, -, -, -⟩ := h
    rw [List.takeWhile_cons, if_neg (by simp [h1])]

theorem dropWhile_digit_stop (rest : List Char) (h : numDelim rest) :
    rest.dropWhile Char.isDigit = rest := by
  cases rest with
  | nil => rfl
  | cons c t =>
    obtain ⟨h1, -, -, -⟩ := h
    rw [List.dropWhile_cons, if_neg (by simp [h1])]

theorem jsonFinishNum_delim (neg : Bool) (v : Nat) (rest : List Char)
    (h : numDelim rest) :
    jsonFinishNum neg v rest
      = .ok (.num (if neg then -(v : Int) else (v : Int)), rest) := by
  cases rest with
  | nil => rfl
  | cons c t =>
    obtain ⟨-, h2, h3, h4⟩ := h
    rw [jsonFinishNum, if_neg (by rintro (h | h | h) <;> [exact h2 h; exact h3 h; exact h4 h])]

theorem jsonParseNumBody_digits (neg : Bool) (n : Nat) (rest : List Char)
    (hrest : numDelim rest) :
    jsonParseNumBody neg (natDigits n ++ rest)
      = .ok (.num (if neg then -(n : Int) else (n : Int)), rest) := by
  by_cases h0 : n = 0
  · subst h0
    have h00 : natDigits 0 = ['0'] := by
      rw [natDigits]
      rfl
    rw [h00, List.cons_append, List.nil_append, jsonParseNumBody, if_pos rfl]
    exact jsonFinishNum_delim neg 0 rest hrest
  · obtain ⟨d, ds, hd⟩ : ∃ d ds, natDigits n = d :: ds := by
      cases hnd : natDigits n with
      | nil => exact absurd hnd (natDigits_ne_nil _)
      | cons a t => exact ⟨a, t, rfl⟩
    have hdig : d.isDigit = true := natDigits_all_digit n d (by rw [hd]; simp)
    have hne0 : ¬ d = '0' := natDigits_head_ne_zero n (by omega) d ds hd
    rw [hd, List.cons_append, jsonParseNumBody, if_neg hne0, if_pos hdig]
    have hall : ∀ c ∈ natDigits n, Char.isDigit c = true := natDigits_all_digit n
    rw [hd] at hall
    have htake : (d :: (ds ++ rest)).takeWhile Char.isDigit = (d :: ds) ++ rest.takeWhile Char.isDigit := by
      rw [← List.cons_append]
      exact takeWhile_append_all Char.isDigit (d :: ds) rest hall
    have hdrop : (d :: (ds ++ rest)).dropWhile Char.isDigit = rest.dropWhile Char.isDigit := by
      rw [← List.cons_append]
      exact dropWhile_append_all Char.isDigit (d :: ds) rest hall
    rw [htake, hdrop, takeWhile_digit_stop rest hrest, dropWhile_digit_stop rest hrest,
      List.append_nil, ← hd, digitsVal_natDigits]
    exact jsonFinishNum_delim neg n rest hrest

theorem jsonParseNum_intRepr (n : Int) (rest : List Char) (hrest : numDelim rest) :
    jsonParseNum (intRepr n ++ rest) = .ok (.num n, rest) := by
  unfold intRepr
  split
  · rename_i hneg
    rw [List.cons_append, jsonParseNum, if_pos rfl,
      jsonParseNumBody_digits true n.natAbs rest hrest]
    congr 3
    rw [if_pos rfl]
    omega
  · rename_i hpos
    obtain ⟨d, ds, hd⟩ : ∃ d ds, natDigits n.natAbs = d :: ds := by
      cases hnd : natDigits n.natAbs with
      | nil => exact absurd hnd (natDigits_ne_nil _)
      | cons a t => exact ⟨a, t, rfl⟩
    have hdig : d.isDigit = true := natDigits_all_digit n.natAbs d (by rw [hd]; simp)
    have hdm : ¬ d = '-' := by
      intro hcontra
      obtain ⟨h1, h2⟩ := isDigit_toNat d hdig
      rw [hcontra] at h1 h2
      have : ('-' : Char).toNat = 45 := rfl
      omega
    rw [hd, List.cons_append, jsonParseNum, if_neg hdm, ← List.cons_append, ← hd,
      jsonParseNumBody_digits false n.natAbs rest hrest]
    congr 3
    rw [if_neg (by simp)]
    omega

theorem hexVal_hexDigitChar : ∀ k, k < 16 → hexVal (hexDigitChar k) = some k := by decide

theorem jsonParseStrGo_escape (f : Nat) (c : Char) (acc tl : List Char) :
    jsonParseStrGo (f + 1) acc (jsonEscapeChar c ++ tl) = jsonParseStrGo f (c :: acc) tl := by
  by_cases h1 : c = '"'
  · subst h1; rfl
  by_cases h2 : c = '\\'
  · subst h2; rfl
  by_cases h3 : c = '\n'
  · subst h3; rfl
  by_cases h4 : c = '\t'
  · subst h4; rfl
  by_cases h5 : c = '\r'
  · subst h5; rfl
  by_cases h6 : c = '\x08'
  · subst h6; rfl
  by_cases h7 : c = '\x0c'
  · subst h7; rfl
  by_cases h8 : c.toNat < 0x20
  · rw [jsonEscapeChar, if_neg h1, if_neg h2, if_neg h3, if_neg h4, if_neg h5, if_neg h6,
      if_neg h7, if_pos h8]
    simp only [List.cons_append, List.nil_append]
    rw [jsonParseStrGo]
    rw [if_neg (by decide), if_pos rfl]
    dsimp only
    rw [if_neg (by decide), if_neg (by decide), if_neg (by decide), if_neg (by decide),
      if_neg (by decide), if_neg (by decide), if_neg (by decide), if_neg (by decide), if_pos rfl]
    rw [hexVal_hexDigitChar (c.toNat / 16) (by omega), hexVal_hexDigitChar (c.toNat % 16) (by omega)]
    simp only [show hexVal '0' = some 0 from by decide]
    rw [if_pos (by omega)]
    have hv : 4096 * 0 + 256 * 0 + 16 * (c.toNat / 16) + c.toNat % 16 = c.toNat := by omega
    rw [hv, Char.ofNat_toNat]
  · rw [jsonEscapeChar, if_neg h1, if_neg h2, if_neg h3, if_neg h4, if_neg h5, if_neg h6,
      if_neg h7, if_neg h8]
    simp only [List.cons_append, List.nil_append]
    rw [jsonParseStrGo.eq_def]
    dsimp only
    rw [if_neg h1, if_neg h2, if_neg h8]

theorem jsonParseStrGo_quote (cs : List Char) : ∀ (f : Nat) (acc rest : List Char),
    cs.length < f →
    jsonParseStrGo f acc (cs.flatMap jsonEscapeChar ++ '"' :: rest) =
      .ok (String.mk (acc.reverse ++ cs), rest) := by
  induction cs with
  | nil =>
    intro f acc rest h
    obtain ⟨g, rfl⟩ : ∃ g, f = g + 1 := ⟨f - 1, by omega⟩
    simp only [List.flatMap_nil, List.nil_append]
    rw [show jsonParseStrGo (g + 1) acc ('"' :: rest) = .ok (String.mk acc.reverse, rest) from rfl,
      List.append_nil]
  | cons c cs ih =>
    intro f acc rest h
    obtain ⟨g, rfl⟩ : ∃ g, f = g + 1 := ⟨f - 1, by omega⟩
    simp only [List.flatMap_cons, List.append_assoc]
    rw [jsonParseStrGo_escape g c acc _,
      ih g (c :: acc) rest (by simp only [List.length_cons] at h; omega)]
    simp

mutual
/-- Fuel sufficient for `jsonParseVal` on the dump of a value. -/
def jsonNeed : Json → Nat
  | .arr (x :: xs) => 1 + jsonNeedItems x xs
  | .obj ((_, v) :: kvs) => 1 + jsonNeedMembers v kvs
  | _ => 1
termination_by v => sizeOf v
decreasing_by all_goals (simp_wf <;> omega)

/-- Fuel sufficient for `jsonParseElems` on dumped items. -/
def jsonNeedItems (x : Json) : List Json → Nat
  | [] => 1 + jsonNeed x
  | y :: ys => 1 + jsonNeed x + jsonNeedItems y ys
termination_by xs => 1 + sizeOf x + sizeOf xs
decreasing_by all_goals (simp_wf <;> omega)

/-- Fuel sufficient for `jsonParseMembers` on dumped members. -/
def jsonNeedMembers (v : Json) : List (String × Json) → Nat
  | [] => 1 + jsonNeed v
  | (_, v2) :: kvs => 1 + jsonNeed v + jsonNeedMembers v2 kvs
termination_by kvs => 1 + sizeOf v + sizeOf kvs
decreasing_by all_goals (simp_wf <;> omega)
end

/-- The tail an array item's parse leaves behind: either the close of
the array or the separator and the next dumped item. -/
def itemTail (d2 d : Nat) : List Json → List Char → List Char
  | [], rest => '\n' :: (indentChars d ++ ']' :: rest)
  | y :: ys, rest =>
    ',' :: '\n' :: (indentChars d2 ++ (jsonDump d2 y ++ itemTail d2 d ys rest))

/-- The tail an object member's parse leaves behind. -/
def memTail (d2 d : Nat) : List (String × Json) → List Char → List Char
  | [], rest => '\n' :: (indentChars d ++ '\x7d' :: rest)
  | (k2, v2) :: kvs, rest =>
    ',' :: '\n' :: (indentChars d2 ++
      (jsonQuote k2 ++ ':' :: ' ' :: (jsonDump d2 v2 ++ memTail d2 d kvs rest)))

theorem jsonNeed_pos (v : Json) : 1 ≤ jsonNeed v := by
  rw [jsonNeed.eq_def]
  split <;> omega

theorem jsonNeedItems_pos (x : Json) (xs : List Json) : 1 ≤ jsonNeedItems x xs := by
  rw [jsonNeedItems.eq_def]
  split <;> omega

theorem jsonNeedMembers_pos (v : Json) (kvs : List (String × Json)) :
    1 ≤ jsonNeedMembers v kvs := by
  rw [jsonNeedMembers.eq_def]
  split <;> omega

mutual
theorem jsonNeed_le_dump : ∀ (v : Json) (d : Nat), jsonNeed v ≤ (jsonDump d v).length + 1
  | .null, d => by rw [jsonNeed.eq_def, jsonDump]; simp
  | .bool true, d => by rw [jsonNeed.eq_def, jsonDump]; simp
  | .bool false, d => by rw [jsonNeed.eq_def, jsonDump]; simp
  | .num n, d => by rw [jsonNeed.eq_def, jsonDump]; simp
  | .str s, d => by rw [jsonNeed.eq_def, jsonDump]; simp
  | .arr [], d => by rw [jsonNeed.eq_def, jsonDump]; simp
  | .arr (x :: xs), d => by
    have h := jsonNeedItems_le_dump x xs (d + 1) (by omega)
    rw [jsonNeed, jsonDump]
    simp only [List.length_cons, List.length_append, indentChars, List.length_replicate]
    omega
  | .obj [], d => by rw [jsonNeed.eq_def, jsonDump]; simp
  | .obj ((k, v) :: kvs), d => by
    have h := jsonNeedMembers_le_dump k v kvs (d + 1) (by omega)
    rw [jsonNeed, jsonDump]
    simp only [List.length_cons, List.length_append, indentChars, List.length_replicate]
    omega
termination_by v _ => sizeOf v
decreasing_by all_goals (simp_wf <;> omega)

theorem jsonNeedItems_le_dump (x : Json) (xs : List Json) (d : Nat) (hd : 1 ≤ d) :
    jsonNeedItems x xs ≤ (jsonDumpItems d x xs).length + 1 :=
  match xs with
  | [] => by
    have h := jsonNeed_le_dump x d
    rw [jsonNeedItems, jsonDumpItems]
    simp only [List.length_append, indentChars, List.length_replicate]
    omega
  | y :: ys => by
    have h1 := jsonNeed_le_dump x d
    have h2 := jsonNeedItems_le_dump y ys d hd
    rw [jsonNeedItems, jsonDumpItems]
    simp only [List.length_append, List.length_cons, indentChars, List.length_replicate]
    omega
termination_by 1 + sizeOf x + sizeOf xs
decreasing_by all_goals (simp_wf <;> omega)

theorem jsonNeedMembers_le_dump (k : String) (v : Json) (kvs : List (String × Json)) (d : Nat)
    (hd : 1 ≤ d) :
    jsonNeedMembers v kvs ≤ (jsonDumpMembers d k v kvs).length + 1 :=
  match kvs with
  | [] => by
    have h := jsonNeed_le_dump v d
    rw [jsonNeedMembers, jsonDumpMembers]
    simp only [List.length_append, List.length_cons, indentChars, List.length_replicate]
    omega
  | (k2, v2) :: kvs2 => by
    have h1 := jsonNeed_le_dump v d
    have h2 := jsonNeedMembers_le_dump k2 v2 kvs2 d hd
    rw [jsonNeedMembers, jsonDumpMembers]
    simp only [List.length_append, List.length_cons, indentChars, List.length_replicate]
    omega
termination_by 1 + sizeOf v + sizeOf kvs
decreasing_by all_goals (simp_wf <;> omega)

end

theorem dumpItems_decomp (d2 d : Nat) :
    ∀ (xs : List Json) (x : Json) (rest : List Char),
      jsonDumpItems d2 x xs ++ '\n' :: (indentChars d ++ ']' :: rest)
        = indentChars d2 ++ (jsonDump d2 x ++ itemTail d2 d xs rest) := by
  intro xs
  induction xs with
  | nil =>
    intro x rest
    rw [jsonDumpItems, itemTail]
    simp [List.append_assoc]
  | cons y ys ih =>
    intro x rest
    rw [jsonDumpItems, itemTail]
    simp only [List.append_assoc, List.cons_append]
    rw [ih y rest]

theorem dumpMembers_decomp (d2 d : Nat) :
    ∀ (kvs : List (String × Json)) (k : String) (v : Json) (rest : List Char),
      jsonDumpMembers d2 k v kvs ++ '\n' :: (indentChars d ++ '\x7d' :: rest)
        = indentChars d2 ++ (jsonQuote k ++ ':' :: ' ' :: (jsonDump d2 v ++ memTail d2 d kvs rest)) := by
  intro kvs
  induction kvs with
  | nil =>
    intro k v rest
    rw [jsonDumpMembers, memTail]
    simp [List.append_assoc]
  | cons kv kvs ih =>
    obtain ⟨k2, v2⟩ := kv
    intro k v rest
    rw [jsonDumpMembers, memTail]
    simp only [List.append_assoc, List.cons_append]
    rw [ih k2 v2 rest]

theorem jsonDump_head (v : Json) (d : Nat) :
    ∃ c t, jsonDump d v = c :: t ∧ jsonWs c = false ∧ ¬ c = ']' ∧ ¬ c = '\x7d' := by
  cases v with
  | null => exact ⟨'n', ['u', 'l', 'l'], by rw [jsonDump], by decide, by decide, by decide⟩
  | bool b =>
    cases b with
    | true => exact ⟨'t', ['r', 'u', 'e'], by rw [jsonDump], by decide, by decide, by decide⟩
    | false => exact ⟨'f', ['a', 'l', 's', 'e'], by rw [jsonDump], by decide, by decide, by decide⟩
  | num n =>
    by_cases hn : n < 0
    · exact ⟨'-', natDigits n.natAbs, by rw [jsonDump, intRepr, if_pos hn], by decide,
        by decide, by decide⟩
    · obtain ⟨c, t, hct⟩ : ∃ c t, natDigits n.natAbs = c :: t := by
        cases hnd : natDigits n.natAbs with
        | nil => exact absurd hnd (natDigits_ne_nil _)
        | cons a t => exact ⟨a, t, rfl⟩
      obtain ⟨h1, h2⟩ := isDigit_toNat c (natDigits_all_digit n.natAbs c (by rw [hct]; simp))
      refine ⟨c, t, by rw [jsonDump, intRepr, if_neg hn, hct], ?_, ?_, ?_⟩
      · simp only [jsonWs, Bool.or_eq_false_iff, decide_eq_false_iff_not]
        refine ⟨⟨⟨?_, ?_⟩, ?_⟩, ?_⟩ <;>
          (intro hc; rw [hc] at h1 h2; first
            | exact absurd h1 (by decide) | exact absurd h2 (by decide))
      · intro hc; rw [hc] at h1 h2; exact absurd h2 (by decide)
      · intro hc; rw [hc] at h1 h2; exact absurd h2 (by decide)
  | str s =>
    exact ⟨'"', s.data.flatMap jsonEscapeChar ++ ['"'], by rw [jsonDump, jsonQuote], by decide,
      by decide, by decide⟩
  | arr xs =>
    cases xs with
    | nil => exact ⟨'[', [']'], by rw [jsonDump], by decide, by decide, by decide⟩
    | cons x xs =>
      exact ⟨'[', '\n' :: (jsonDumpItems (d + 1) x xs ++ '\n' :: (indentChars d ++ [']'])),
        by rw [jsonDump], by decide, by decide, by decide⟩
  | obj kvs =>
    cases kvs with
    | nil => exact ⟨'\x7b', ['\x7d'], by rw [jsonDump], by decide, by decide, by decide⟩
    | cons kv kvs =>
      obtain ⟨k, v⟩ := kv
      exact ⟨'\x7b',
        '\n' :: (jsonDumpMembers (d + 1) k v kvs ++ '\n' :: (indentChars d ++ ['\x7d'])),
        by rw [jsonDump], by decide, by decide, by decide⟩

theorem length_le_flatMap_escape (cs : List Char) :
    cs.length ≤ (cs.flatMap jsonEscapeChar).length := by
  induction cs with
  | nil => simp
  | cons c cs ih =>
    have h : 1 ≤ (jsonEscapeChar c).length := by
      rw [jsonEscapeChar]
      split_ifs <;> simp
    simp only [List.flatMap_cons, List.length_append, List.length_cons]
    omega

theorem skipWs_dump (d : Nat) (v : Json) (l : List Char) :
    skipWs (jsonDump d v ++ l) = jsonDump d v ++ l := by
  obtain ⟨c, t, hct, hws, _, _⟩ := jsonDump_head v d
  rw [hct, List.cons_append, skipWs_cons_of_not_ws c hws]

theorem parseVal_step_null (g d : Nat) (rest s : List Char)
    (hs : skipWs s = jsonDump d .null ++ rest) :
    jsonParseVal (g + 1) s = .ok (.null, rest) := by
  rw [jsonDump] at hs
  simp only [List.cons_append, List.nil_append] at hs
  rw [jsonParseVal, hs]
  rfl

theorem parseVal_step_true (g d : Nat) (rest s : List Char)
    (hs : skipWs s = jsonDump d (.bool true) ++ rest) :
    jsonParseVal (g + 1) s = .ok (.bool true, rest) := by
  rw [jsonDump] at hs
  simp only [List.cons_append, List.nil_append] at hs
  rw [jsonParseVal, hs]
  rfl

theorem parseVal_step_false (g d : Nat) (rest s : List Char)
    (hs : skipWs s = jsonDump d (.bool false) ++ rest) :
    jsonParseVal (g + 1) s = .ok (.bool false, rest) := by
  rw [jsonDump] at hs
  simp only [List.cons_append, List.nil_append] at hs
  rw [jsonParseVal, hs]
  rfl

theorem parseVal_step_num (g d : Nat) (n : Int) (rest s : List Char)
    (hs : skipWs s = jsonDump d (.num n) ++ rest) (hnum : numDelim rest) :
    jsonParseVal (g + 1) s = .ok (.num n, rest) := by
  rw [jsonDump] at hs
  by_cases hn : n < 0
  · rw [intRepr, if_pos hn] at hs
    simp only [List.cons_append] at hs
    rw [jsonParseVal, hs]
    dsimp only
    rw [if_neg (by decide), if_neg (by decide), if_neg (by decide), if_neg (by decide),
      if_neg (by decide), if_neg (by decide), if_pos (Or.inl rfl)]
    rw [← List.cons_append,
      show ('-' :: natDigits n.natAbs) = intRepr n from (by rw [intRepr, if_pos hn])]
    exact jsonParseNum_intRepr n rest hnum
  · obtain ⟨c, t, hct⟩ : ∃ c t, natDigits n.natAbs = c :: t := by
      cases hnd : natDigits n.natAbs with
      | nil => exact absurd hnd (natDigits_ne_nil _)
      | cons a t => exact ⟨a, t, rfl⟩
    have hdig : c.isDigit = true := natDigits_all_digit n.natAbs c (by rw [hct]; simp)
    obtain ⟨h1, h2⟩ := isDigit_toNat c hdig
    rw [intRepr, if_neg hn, hct] at hs
    simp only [List.cons_append] at hs
    rw [jsonParseVal, hs]
    dsimp only
    rw [if_neg (show ¬ c = 'n' by intro hc; rw [hc] at h2; exact absurd h2 (by decide)),
      if_neg (show ¬ c = 't' by intro hc; rw [hc] at h2; exact absurd h2 (by decide)),
      if_neg (show ¬ c = 'f' by intro hc; rw [hc] at h2; exact absurd h2 (by decide)),
      if_neg (show ¬ c = '"' by intro hc; rw [hc] at h1; exact absurd h1 (by decide)),
      if_neg (show ¬ c = '[' by intro hc; rw [hc] at h2; exact absurd h2 (by decide)),
      if_neg (show ¬ c = '\x7b' by intro hc; rw [hc] at h2; exact absurd h2 (by decide)),
      if_pos (Or.inr hdig)]
    rw [← List.cons_append, ← hct,
      show natDigits n.natAbs = intRepr n from (by rw [intRepr, if_neg hn])]
    exact jsonParseNum_intRepr n rest hnum

theorem parseVal_step_str (g d : Nat) (s' : String) (rest s : List Char)
    (hs : skipWs s = jsonDump d (.str s') ++ rest) :
    jsonParseVal (g + 1) s = .ok (.str s', rest) := by
  rw [jsonDump, jsonQuote] at hs
  simp only [List.cons_append, List.append_assoc, List.singleton_append, List.nil_append] at hs
  rw [jsonParseVal, hs]
  dsimp only
  rw [if_neg (by decide), if_neg (by decide), if_neg (by decide), if_pos rfl]
  rw [jsonParseStrGo_quote s'.data
    ((s'.data.flatMap jsonEscapeChar ++ '"' :: rest).length + 1) [] rest
    (by
      simp only [List.length_append, List.length_cons]
      have := length_le_flatMap_escape s'.data
      omega)]
  rfl

theorem parseVal_step_arrNil (g d : Nat) (rest s : List Char)
    (hs : skipWs s = jsonDump d (.arr []) ++ rest) :
    jsonParseVal (g + 1) s = .ok (.arr [], rest) := by
  rw [jsonDump] at hs
  simp only [List.cons_append, List.nil_append] at hs
  rw [jsonParseVal, hs]
  dsimp only
  rw [if_neg (by decide), if_neg (by decide), if_neg (by decide), if_neg (by decide),
    if_pos rfl]
  rw [skipWs_cons_of_not_ws ']' (by decide)]
  rfl

theorem parseVal_step_objNil (g d : Nat) (rest s : List Char)
    (hs : skipWs s = jsonDump d (.obj []) ++ rest) :
    jsonParseVal (g + 1) s = .ok (.obj [], rest) := by
  rw [jsonDump] at hs
  simp only [List.cons_append, List.nil_append] at hs
  rw [jsonParseVal, hs]
  dsimp only
  rw [if_neg (by decide), if_neg (by decide), if_neg (by decide), if_neg (by decide),
    if_neg (by decide), if_pos rfl]
  rw [skipWs_cons_of_not_ws '\x7d' (by decide)]
  rfl

theorem skipWs_quote (k : String) (l : List Char) :
    skipWs (jsonQuote k ++ l) = jsonQuote k ++ l := by
  rw [jsonQuote, List.cons_append, skipWs_cons_of_not_ws '"' (by decide)]

theorem jsonNeedItems_ge (x : Json) (xs : List Json) :
    1 + jsonNeed x ≤ jsonNeedItems x xs := by
  rw [jsonNeedItems.eq_def]
  split <;> omega

theorem jsonNeedMembers_ge (v : Json) (kvs : List (String × Json)) :
    1 + jsonNeed v ≤ jsonNeedMembers v kvs := by
  rw [jsonNeedMembers.eq_def]
  split <;> omega

theorem numOk_itemTail (x : Json) (xs : List Json) (d2 d : Nat) (rest : List Char) :
    numOk x (itemTail d2 d xs rest) := by
  cases x <;> try trivial
  cases xs with
  | nil => exact ⟨by decide, by decide, by decide, by decide⟩
  | cons y ys => exact ⟨by decide, by decide, by decide, by decide⟩

theorem numOk_memTail (v : Json) (kvs : List (String × Json)) (d2 d : Nat) (rest : List Char) :
    numOk v (memTail d2 d kvs rest) := by
  cases v <;> try trivial
  cases kvs with
  | nil => exact ⟨by decide, by decide, by decide, by decide⟩
  | cons kv kvs => exact ⟨by decide, by decide, by decide, by decide⟩

theorem jsonParse_dump (f : Nat) :
    (∀ (v : Json) (d : Nat) (rest s : List Char),
        skipWs s = jsonDump d v ++ rest → jsonNeed v ≤ f → numOk v rest →
        jsonParseVal f s = .ok (v, rest)) ∧
    (∀ (x : Json) (xs : List Json) (d2 d : Nat) (acc : List Json) (rest s : List Char),
        skipWs s = jsonDump d2 x ++ itemTail d2 d xs rest → jsonNeedItems x xs ≤ f →
        jsonParseElems f s acc = .ok (.arr (acc.reverse ++ x :: xs), rest)) ∧
    (∀ (k : String) (v : Json) (kvs : List (String × Json)) (d2 d : Nat)
        (acc : List (String × Json)) (rest : List Char),
        jsonNeedMembers v kvs ≤ f →
        jsonParseMembers f
          (jsonQuote k ++ ':' :: ' ' :: (jsonDump d2 v ++ memTail d2 d kvs rest)) acc
          = .ok (.obj (acc.reverse ++ (k, v) :: kvs), rest)) := by
  induction f using Nat.strong_induction_on with
  | _ f ih =>
    cases f with
    | zero =>
      refine ⟨fun v d rest s _ hneed _ => ?_, fun x xs d2 d acc rest s _ hneed => ?_,
        fun k v kvs d2 d acc rest hneed => ?_⟩
      · exact absurd hneed (by have := jsonNeed_pos v; omega)
      · exact absurd hneed (by have := jsonNeedItems_pos x xs; omega)
      · exact absurd hneed (by have := jsonNeedMembers_pos v kvs; omega)
    | succ g =>
      obtain ⟨ihP, ihQ, ihR⟩ := ih g (by omega)
      refine ⟨?_, ?_, ?_⟩
      · -- values
        intro v d rest s hs hneed hnum
        cases v with
        | null => exact parseVal_step_null g d rest s hs
        | bool b =>
          cases b with
          | true => exact parseVal_step_true g d rest s hs
          | false => exact parseVal_step_false g d rest s hs
        | num n => exact parseVal_step_num g d n rest s hs hnum
        | str s' => exact parseVal_step_str g d s' rest s hs
        | arr xs =>
          cases xs with
          | nil => exact parseVal_step_arrNil g d rest s hs
          | cons x xs =>
            rw [jsonDump] at hs
            simp only [List.cons_append, List.append_assoc, List.singleton_append,
              List.nil_append] at hs
            rw [dumpItems_decomp (d + 1) d xs x rest] at hs
            rw [jsonParseVal, hs]
            dsimp only
            rw [if_neg (by decide), if_neg (by decide), if_neg (by decide),
              if_neg (by decide), if_pos rfl]
            rw [skipWs_cons_of_ws '\n' (by decide), skipWs_indent, skipWs_dump]
            obtain ⟨c0, t0, hct0, hws0, hne0, _⟩ := jsonDump_head x (d + 1)
            rw [hct0, List.cons_append]
            rw [if_neg (by simp only [List.head?_cons, Option.some.injEq]; exact hne0)]
            rw [← List.cons_append, ← hct0]
            rw [ihQ x xs (d + 1) d [] rest _ (by rw [skipWs_dump])
              (by rw [jsonNeed] at hneed; omega)]
            simp
        | obj kvs =>
          cases kvs with
          | nil => exact parseVal_step_objNil g d rest s hs
          | cons kv kvs =>
            obtain ⟨k, v⟩ := kv
            rw [jsonDump] at hs
            simp only [List.cons_append, List.append_assoc, List.singleton_append,
              List.nil_append] at hs
            rw [dumpMembers_decomp (d + 1) d kvs k v rest] at hs
            rw [jsonParseVal, hs]
            dsimp only
            rw [if_neg (by decide), if_neg (by decide), if_neg (by decide),
              if_neg (by decide), if_neg (by decide), if_pos rfl]
            rw [skipWs_cons_of_ws '\n' (by decide), skipWs_indent, skipWs_quote]
            rw [if_neg (by
              rw [jsonQuote, List.cons_append]
              simp only [List.head?_cons, Option.some.injEq]
              decide)]
            rw [ihR k v kvs (d + 1) d [] rest (by rw [jsonNeed] at hneed; omega)]
            simp
      · -- array elements
        intro x xs d2 d acc rest s hs hneed
        rw [jsonParseElems]
        rw [ihP x d2 (itemTail d2 d xs rest) s hs
          (by have := jsonNeedItems_ge x xs; omega) (numOk_itemTail x xs d2 d rest)]
        dsimp only
        cases xs with
        | nil =>
          rw [itemTail]
          rw [skipWs_cons_of_ws '\n' (by decide), skipWs_indent,
            skipWs_cons_of_not_ws ']' (by decide)]
          dsimp only
          rw [if_neg (by decide), if_pos rfl]
          simp
        | cons y ys =>
          rw [itemTail]
          rw [skipWs_cons_of_not_ws ',' (by decide)]
          dsimp only
          rw [if_pos rfl]
          rw [ihQ y ys d2 d (x :: acc) rest _
            (by rw [skipWs_cons_of_ws '\n' (by decide), skipWs_indent, skipWs_dump])
            (by rw [jsonNeedItems] at hneed; omega)]
          simp
      · -- object members
        intro k v kvs d2 d acc rest hneed
        rw [show jsonQuote k ++ ':' :: ' ' :: (jsonDump d2 v ++ memTail d2 d kvs rest)
            = '"' :: (k.data.flatMap jsonEscapeChar
                ++ '"' :: (':' :: ' ' :: (jsonDump d2 v ++ memTail d2 d kvs rest))) from by
          rw [jsonQuote]
          simp only [List.cons_append, List.append_assoc, List.singleton_append,
            List.nil_append]]
        rw [jsonParseMembers]
        rw [if_pos rfl]
        rw [jsonParseStrGo_quote k.data _ [] _
          (by
            simp only [List.length_append, List.length_cons]
            have := length_le_flatMap_escape k.data
            omega)]
        simp only [List.reverse_nil, List.nil_append]
        rw [show String.mk k.data = k from rfl]
        rw [skipWs_cons_of_not_ws ':' (by decide)]
        dsimp only
        rw [if_pos rfl]
        rw [ihP v d2 (memTail d2 d kvs rest) _
          (by rw [skipWs_cons_of_ws ' ' (by decide), skipWs_dump])
          (by have := jsonNeedMembers_ge v kvs; omega) (numOk_memTail v kvs d2 d rest)]
        dsimp only
        cases kvs with
        | nil =>
          rw [memTail]
          rw [skipWs_cons_of_ws '\n' (by decide), skipWs_indent,
            skipWs_cons_of_not_ws '\x7d' (by decide)]
          dsimp only
          rw [if_neg (by decide), if_pos rfl]
          simp
        | cons kv2 kvs2 =>
          obtain ⟨k2, v2⟩ := kv2
          rw [memTail]
          rw [skipWs_cons_of_not_ws ',' (by decide)]
          dsimp only
          rw [if_pos rfl]
          rw [skipWs_cons_of_ws '\n' (by decide), skipWs_indent, skipWs_quote]
          rw [ihR k2 v2 kvs2 d2 d ((k, v) :: acc) rest
            (by rw [jsonNeedMembers] at hneed; omega)]
          simp

/-- C10: the JSON index store round-trips: saving any index mapping with
`save_index` and reading it back with `load_index` returns exactly the
saved mapping, and `load_index` on a filesystem without the index file
returns the empty mapping. -/
theorem index_store_roundtrip (fs : FS) (ix : List (String × Json)) :
    load_index (save_index fs ix) = .ok (.obj ix) ∧
      load_index [] = .ok (.obj []) := by
  constructor
  · have hs : skipWs (jsonDump 0 (.obj ix)) = jsonDump 0 (.obj ix) ++ [] := by
      obtain ⟨c, t, hct, hws, _, _⟩ := jsonDump_head (.obj ix) 0
      rw [List.append_nil, hct, skipWs_cons_of_not_ws c hws]
    rw [save_index, load_index]
    rw [show fsRead (fsWrite fs INDEX_PATH (String.mk (jsonDump 0 (.obj ix)))) INDEX_PATH
          = some (String.mk (jsonDump 0 (.obj ix))) from by
        rw [fsWrite, fsRead]
        exact if_pos rfl]
    dsimp only
    rw [jsonLoads]
    rw [show (String.mk (jsonDump 0 (.obj ix))).data = jsonDump 0 (.obj ix) from rfl]
    rw [(jsonParse_dump ((jsonDump 0 (.obj ix)).length + 1)).1 (.obj ix) 0 []
      (jsonDump 0 (.obj ix)) hs (jsonNeed_le_dump (.obj ix) 0) trivial]
    rfl
  · rfl

end Codexa
